import Mathlib

/-!
Configuration resolution of the `air` runner (`runner/config.go`).

A shallow embedding of `runner/config.go`: the configuration record, the
default provider, the loader `InitConfig`, the normalization step
`preprocess` and the derived accessors, followed by theorems about them.

Conventions of the embedding.

* Go functions returning `(T, error)` return a pair `T × Option GoError`;
  `none` is the `nil` error.  A `*config` result is an `Option config`,
  `none` being the `nil` pointer.
* The ambient process state (`os.Getwd`, `ioutil.ReadFile`,
  `toml.Unmarshal`) and the helper `expandPath`, which lives outside
  `config.go` and depends on the process state, are fields of an
  environment `Env`; every theorem quantifies over all environments.
* The calls to `os.Getwd` and `ioutil.ReadFile` written in `config.go` are
  recorded in a log of `Event`s, so that statements about which files are
  read can be made.
* Go strings are modelled by Lean strings.  The path functions only
  inspect the ASCII characters `/` and `.`, which never occur inside a
  multi-byte UTF-8 sequence, so working on characters agrees with working
  on bytes.
-/

namespace Runner

/-! ## Data model -/

/-- A Go `error` value. -/
structure GoError where
  msg : String
  deriving DecidableEq, Repr

/-- The Go struct `cfgBuild`. -/
structure cfgBuild where
  Bin : String
  Cmd : String
  Log : String
  IncludeExt : List String
  ExcludeDir : List String
  Delay : Int
  deriving DecidableEq, Repr

/-- The Go struct `cfgColor`. -/
structure cfgColor where
  Main : String
  Watcher : String
  Build : String
  Runner : String
  App : String
  deriving DecidableEq, Repr

/-- The Go struct `config`. -/
structure config where
  Root : String
  WatchDir : String
  TmpDir : String
  Build : cfgBuild
  Color : cfgColor
  deriving DecidableEq, Repr

/-- The constant `dftConf`. -/
def dftConf : String := ".air.conf"

/-- The zero value `config{}` that `readConfig` hands to `toml.Unmarshal`. -/
def zeroConfig : config :=
  { Root := "", WatchDir := "", TmpDir := "",
    Build := { Bin := "", Cmd := "", Log := "", IncludeExt := [], ExcludeDir := [], Delay := 0 },
    Color := { Main := "", Watcher := "", Build := "", Runner := "", App := "" } }

/-! ## `path/filepath` (Unix) -/

/-- Split a path at every `/`; the result is never empty. -/
def splitSlash : List Char → List (List Char)
  | [] => [[]]
  | c :: cs =>
    if c = '/' then [] :: splitSlash cs
    else
      match splitSlash cs with
      | [] => [[c]]
      | h :: t => (c :: h) :: t

/-- One path element processed by `filepath.Clean`; `stack` holds the
elements kept so far, the last one first.  Empty and `.` elements are
dropped; `..` removes the preceding element when that is not itself `..`,
is dropped at the start of a rooted path and kept at the start of a
relative one. -/
def cleanStep (rooted : Bool) (stack : List (List Char)) (comp : List Char) :
    List (List Char) :=
  if comp = [] ∨ comp = ['.'] then stack
  else if comp = ['.', '.'] then
    match stack with
    | [] => if rooted then [] else [comp]
    | top :: rest =>
      if top = ['.', '.'] then (if rooted then stack else comp :: stack) else rest
  else comp :: stack

/-- Join path elements with `/`. -/
def joinSlash : List (List Char) → List Char
  | [] => []
  | [x] => x
  | x :: y :: rest => x ++ '/' :: joinSlash (y :: rest)

/-- Go's `filepath.Clean` on Unix, on character lists. -/
def cleanChars (p : List Char) : List Char :=
  let rooted : Bool := p.head? = some '/'
  let stack := (splitSlash p).foldl (cleanStep rooted) []
  let body := joinSlash stack.reverse
  if rooted then '/' :: body
  else if body = [] then ['.'] else body

/-- Go's `filepath.Clean` on Unix. -/
def Clean (p : String) : String := String.mk (cleanChars p.data)

/-- Go's `filepath.Join` on Unix for two elements: the elements from the
first non-empty one on are joined with `/` and the result is cleaned; the
join of empty elements only is the empty string. -/
def Join (a b : String) : String :=
  if a ≠ "" then Clean (a ++ "/" ++ b)
  else if b ≠ "" then Clean b
  else ""

/-- Go's `filepath.IsAbs` on Unix: the path begins with a separator. -/
def IsAbs (path : String) : Bool := path.data.head? = some '/'

/-- The loop of `filepath.Rel` that strips the leading elements that
`base` and `targ` have in common.  The arguments are `base[b0:]` and
`targ[t0:]` at the head of an iteration; the result is `base[b0:]` and
`targ[t0:]` at the first differing elements, or where one of the two paths
is used up.  Every iteration shortens `base[b0:]`, so a fuel of the length
of `base` is never used up. -/
def relLoop : Nat → List Char → List Char → List Char × List Char
  | 0, b, t => (b, t)
  | fuel + 1, b, t =>
    if b = [] ∨ t = [] then (b, t)
    else if t.takeWhile (fun c => c != '/') ≠ b.takeWhile (fun c => c != '/') then (b, t)
    else
      relLoop fuel ((b.dropWhile (fun c => c != '/')).drop 1)
        ((t.dropWhile (fun c => c != '/')).drop 1)

/-- The error of `filepath.Rel`. -/
def relError (basepath targpath : String) : GoError :=
  ⟨"Rel: can't make " ++ targpath ++ " relative to " ++ basepath⟩

/-- The body of `filepath.Rel` on Unix, where volume names are empty and
`sameWord` is equality, on the cleaned paths `base` and `targ`; `none` stands
for the two `return "", errors.New(...)`.  After the common leading elements
are stripped, the first element that is left of `base` decides: when it is
`..` the target cannot be reached without knowing the working directory,
also when nothing is left of the target.  Otherwise one `..` is written for
every element left of `base`, followed by what is left of `targ`, and, as
documented ("Rel calls Clean on the result"), the path so built is cleaned,
which turns `../.` into `..`. -/
def relChars (base targ : List Char) : Option (List Char) :=
  if targ = base then some ['.']
  else
    let base := if base = ['.'] then [] else base
    let baseSlashed : Bool := base.head? = some '/'
    let targSlashed : Bool := targ.head? = some '/'
    if baseSlashed ≠ targSlashed then none
    else
      let r := relLoop base.length base targ
      if r.1.takeWhile (fun c => c != '/') = ['.', '.'] then none
      else if r.1 ≠ [] then
        let seps := r.1.count '/'
        some (cleanChars (['.', '.'] ++ (List.replicate seps ['/', '.', '.']).flatten ++
          (if r.2 ≠ [] then '/' :: r.2 else [])))
      else some r.2

/-- Go's `filepath.Rel` on Unix. -/
def filepathRel (basepath targpath : String) : String × Option GoError :=
  match relChars (Clean basepath).data (Clean targpath).data with
  | some r => (String.mk r, none)
  | none => ("", some (relError basepath targpath))

/-- Sample values of `filepath.Rel`: `none` stands for an error. -/
def relSample (basepath targpath : String) : Option String :=
  match (filepathRel basepath targpath).2 with
  | some _ => none
  | none => some (filepathRel basepath targpath).1

/-- The elements that `filepath.Clean` keeps, the last one first: none is
empty, `.` or contains a `/`, and `..` occurs only in a relative path and
only with nothing but `..` before it. -/
def GoodStack (rooted : Bool) : List (List Char) → Prop
  | [] => True
  | x :: s =>
    (x ≠ [] ∧ x ≠ ['.'] ∧ '/' ∉ x) ∧
    (x = ['.', '.'] → rooted = false ∧ (s = [] ∨ s.head? = some ['.', '.'])) ∧
    GoodStack rooted s

/-- The path that `filepath.Clean` writes for the elements it kept, the
last one first. -/
def cleanFormat (rooted : Bool) (stack : List (List Char)) : List Char :=
  if rooted then '/' :: joinSlash stack.reverse
  else if joinSlash stack.reverse = [] then ['.'] else joinSlash stack.reverse

/-! ## Helpers of the package that live outside `config.go` -/

/-- Modelled from the spec: the helper `cleanPath` of package `runner` is
called by `preprocess` but is defined outside `config.go`.  The spec
describes it as path cleaning, "collapse redundant separators and
`.`/`..` segments", which is `filepath.Clean`. -/
def cleanPath (path : String) : String := Clean path

/-! ## Environment -/

/-- The input/output calls that `config.go` itself performs. -/
inductive Event where
  | getwd : Event
  | readFile (path : String) : Event
  deriving DecidableEq, Repr

/-- Whether an event is a document read. -/
def Event.isRead : Event → Bool
  | Event.getwd => false
  | Event.readFile _ => true

/-- The process state seen by `config.go`.

* `getwd` is `os.Getwd()`.
* `readFile` is `ioutil.ReadFile`.
* `unmarshal data c` is `toml.Unmarshal(data, &c)`: the value of `c`
  afterwards and the error.
* `expandPath` is the helper `expandPath` of package `runner`, defined
  outside `config.go`; it consults the process state (working directory,
  home directory) and is left arbitrary. -/
structure Env where
  getwd : String × Option GoError
  readFile : String → List UInt8 × Option GoError
  unmarshal : List UInt8 → config → config × Option GoError
  expandPath : String → String × Option GoError

/-! ## `config.go` -/

/-- The Go function `defaultConfig`. -/
def defaultConfig : config :=
  let build : cfgBuild :=
    { Bin := "tmp/main",
      Cmd := "go build -o ./tmp/main main.go",
      Log := "build-errors.log",
      IncludeExt := ["go", "tpl", "tmpl", "html"],
      ExcludeDir := ["assets", "tmp", "vendor"],
      Delay := 1000 }
  let color : cfgColor :=
    { Main := "magenta",
      Watcher := "cyan",
      Build := "yellow",
      Runner := "green",
      App := "white" }
  { Root := ".",
    TmpDir := "tmp",
    WatchDir := "",
    Build := build,
    Color := color }

/-- The Go function `readConfig`, with the log of its input/output calls. -/
def readConfig (env : Env) (path : String) :
    (Option config × Option GoError) × List Event :=
  match (env.readFile path).2 with
  | some err => ((none, some err), [Event.readFile path])
  | none =>
    match (env.unmarshal (env.readFile path).1 zeroConfig).2 with
    | some err => ((none, some err), [Event.readFile path])
    | none =>
      ((some (env.unmarshal (env.readFile path).1 zeroConfig).1, none),
        [Event.readFile path])

/-- The loop `for i := range ed { ed[i] = cleanPath(ed[i]) }` of
`preprocess`: the indices `0 .. len(ed) - 1` are visited in order and each
slot is overwritten in place. -/
def cleanExcludeDirs (ed : List String) : List String :=
  (List.range ed.length).foldl
    (fun acc i => acc.set i (cleanPath (acc.getD i ""))) ed

/-- The Go method `(*config).preprocess`: the configuration after the call
and the returned error. -/
def preprocess (env : Env) (c : config) : config × Option GoError :=
  let c1 : config := { c with Root := (env.expandPath c.Root).1 }
  let c2 : config := if c1.TmpDir = "" then { c1 with TmpDir := "tmp" } else c1
  match (env.expandPath c.Root).2 with
  | some err => (c2, some err)
  | none =>
    ({ c2 with Build := { c2.Build with ExcludeDir := cleanExcludeDirs c2.Build.ExcludeDir } },
      none)

/-- The Go function `dftConfPath`, with the log of its input/output calls. -/
def dftConfPath (env : Env) : (String × Option GoError) × List Event :=
  match env.getwd.2 with
  | some err => (("", some err), [Event.getwd])
  | none => ((Join env.getwd.1 dftConf, none), [Event.getwd])

/-- Lines 52 to 60 of `InitConfig`: read the candidate `path`, fall back to
`dft` when the read fails and `useDftCfg` is set, then normalize.  `log`
holds the calls made so far.  The last case is not reachable, `readConfig`
returning a configuration whenever its error is `nil`. -/
def loadConfig (env : Env) (useDftCfg : Bool) (dft : config) (path : String)
    (log : List Event) : (Option config × Option GoError) × List Event :=
  match (readConfig env path).1 with
  | (_, some err) =>
    if !useDftCfg then ((none, some err), log ++ (readConfig env path).2)
    else
      ((some (preprocess env dft).1, (preprocess env dft).2),
        log ++ (readConfig env path).2)
  | (some cfg, none) =>
    ((some (preprocess env cfg).1, (preprocess env cfg).2),
      log ++ (readConfig env path).2)
  | (none, none) => ((none, none), log ++ (readConfig env path).2)

/-- The Go function `InitConfig`: the returned pointer and error, and the
log of the input/output calls made. -/
def InitConfig (env : Env) (path : String) :
    (Option config × Option GoError) × List Event :=
  let dft := defaultConfig
  if path = "" then
    match (dftConfPath env).1 with
    | (_, some _) => ((some dft, none), (dftConfPath env).2)
    | (path1, none) => loadConfig env true dft path1 (dftConfPath env).2
  else loadConfig env false dft path []

/-- The Go method `(*config).FullPath`. -/
def config.FullPath (c : config) (path : String) : String := Join c.Root path

/-- The Go method `(*config).TmpPath`. -/
def config.TmpPath (c : config) : String := Join c.Root c.TmpDir

/-- The Go method `(*config).WatchDirRoot`. -/
def config.WatchDirRoot (c : config) : String :=
  if c.WatchDir ≠ "" then c.FullPath c.WatchDir else c.Root

/-- The Go method `(*config).BuildLogPath`. -/
def config.BuildLogPath (c : config) : String := Join c.TmpPath c.Build.Log

/-- The Go method `(*config).BinPath`. -/
def config.BinPath (c : config) : String := Join c.Root c.Build.Bin

/-- The Go method `(*config).Rel`. -/
def config.Rel (c : config) (path : String) : String :=
  match (filepathRel c.Root path).2 with
  | some _ => ""
  | none => (filepathRel c.Root path).1

/-- The value of a signed 64-bit integer after wrap-around: Go's `int` on a
64-bit platform and `int64`, the type underlying `time.Duration`. -/
def int64 (x : Int) : Int :=
  (x + 9223372036854775808) % 18446744073709551616 - 9223372036854775808

/-- The constant `time.Millisecond`, in nanoseconds. -/
def Millisecond : Int := 1000000

/-- The Go method `(*config).BuildDelay`: the conversion
`time.Duration(c.Build.Delay)` followed by the `int64` multiplication with
`time.Millisecond`; the result is in nanoseconds. -/
def config.BuildDelay (c : config) : Int := int64 (int64 c.Build.Delay * Millisecond)

/-- Modelled from the spec: the helper `expandPath` is defined outside
`config.go`.  The spec states of it that "root expansion and path cleaning
are idempotent": expanding a path that a successful expansion returned
succeeds and returns that path unchanged. -/
def Env.expandIdempotent (env : Env) : Prop :=
  ∀ p, (env.expandPath p).2 = none →
    env.expandPath (env.expandPath p).1 = ((env.expandPath p).1, none)

/-- Modelled from the spec: the helper `expandPath` is defined outside
`config.go`.  The spec states of it that it expands the root "to an absolute
path": the path that a successful expansion returns is absolute. -/
def Env.expandAbsolute (env : Env) : Prop :=
  ∀ p, (env.expandPath p).2 = none → IsAbs (env.expandPath p).1 = true

/-- Modelled from the spec: the helper `expandPath` is defined outside
`config.go`.  The one failure that the spec gives of root expansion is that
it "cannot resolve working directory for `root` expansion": in a process whose
working directory can be determined, every expansion succeeds. -/
def Env.expandNeedsWd (env : Env) : Prop :=
  env.getwd.2 = none → ∀ p, (env.expandPath p).2 = none

/-- The configuration `src` is the one that `InitConfig env path` hands to
`preprocess`: the parsed document of an explicit path, the parsed
conventional file, or the default when reading the conventional file
failed. -/
def reachesPreprocess (env : Env) (path : String) (src : config) : Prop :=
  (path ≠ "" ∧ (readConfig env path).1 = (some src, none)) ∨
  (path = "" ∧ env.getwd.2 = none ∧
    (readConfig env (Join env.getwd.1 dftConf)).1 = (some src, none)) ∨
  (path = "" ∧ env.getwd.2 = none ∧
    (readConfig env (Join env.getwd.1 dftConf)).1.2 ≠ none ∧ src = defaultConfig)

instance (env : Env) (path : String) (src : config) :
    Decidable (reachesPreprocess env path src) := by
  unfold reachesPreprocess
  infer_instance

/-! ## Sample environments -/

/-- The error of reading a file that does not exist. -/
def enoent : GoError := ⟨"no such file or directory"⟩

/-- The error of parsing a malformed document. -/
def badToml : GoError := ⟨"toml: malformed document"⟩

/-- The error of a working directory that cannot be determined. -/
def noWd : GoError := ⟨"getwd: no such file or directory"⟩

/-- The bytes of a well-formed sample document. -/
def sampleDoc : List UInt8 := [114, 111, 111, 116]

/-- What the sample document sets: `root` and `build.exclude_dir`; every
other key is absent. -/
def sampleParsed (c : config) : config :=
  { c with Root := ".", Build := { c.Build with ExcludeDir := ["a/./b", "c/../d"] } }

/-- A project directory `/proj` holding the conventional file and an
explicit file `conf/air.conf`, both with the sample document, and a
malformed file `conf/bad.conf`.  Root expansion replaces `.` by the working
directory. -/
def envProj : Env :=
  { getwd := ("/proj", none),
    readFile := fun p =>
      if p = "/proj/.air.conf" ∨ p = "conf/air.conf" then (sampleDoc, none)
      else if p = "conf/bad.conf" then ([0], none)
      else ([], some enoent),
    unmarshal := fun data c =>
      if data = sampleDoc then (sampleParsed c, none) else (c, some badToml),
    expandPath := fun p => if p = "." then ("/proj", none) else (p, none) }

/-- A project directory `/proj` without any configuration file. -/
def envEmptyDir : Env :=
  { envProj with readFile := fun _ => ([], some enoent) }

/-- A project directory `/proj` whose conventional file is malformed. -/
def envMalformed : Env :=
  { envProj with readFile := fun _ => ([0], none) }

/-- The project directory `/proj` of `envProj` with a root expansion that
returns an absolute path for every path: an absolute path is kept, `.` is
the working directory, and any other relative path is put below the working
directory. -/
def envAbs : Env :=
  { envProj with
    expandPath := fun p =>
      if IsAbs p then (p, none)
      else if p = "." then ("/proj", none)
      else ("/proj/" ++ p, none) }

/-- A process whose working directory cannot be determined: `os.Getwd`
fails, and so does every root expansion. -/
def envNoWd : Env :=
  { getwd := ("", some noWd),
    readFile := fun _ => ([], some enoent),
    unmarshal := fun _ c => (c, some badToml),
    expandPath := fun _ => ("", some noWd) }

/-- A process whose working directory `/proj`, without configuration file
and with the explicit file `conf/air.conf`, stops being resolvable after
the conventional file has been located: root expansion fails. -/
def envWdLost : Env :=
  { getwd := ("/proj", none),
    readFile := fun p => if p = "conf/air.conf" then (sampleDoc, none) else ([], some enoent),
    unmarshal := fun data c =>
      if data = sampleDoc then (sampleParsed c, none) else (c, some badToml),
    expandPath := fun _ => ("", some noWd) }

/-- A configuration whose delay, 9223372036855 ms, fits in a 64-bit `int`
while its number of nanoseconds does not. -/
def hugeDelayConfig : config :=
  { zeroConfig with Build := { zeroConfig.Build with Delay := 9223372036855 } }

/-- A configuration whose root is not in cleaned form and that names no
watch directory. -/
def uncleanRootConfig : config :=
  { zeroConfig with Root := "./proj//src/" }

/-! ## Basic facts about the loader -/

theorem readConfig_log (env : Env) (path : String) :
    (readConfig env path).2 = [Event.readFile path] := by
  unfold readConfig
  split
  · rfl
  · split <;> rfl

theorem readConfig_err_iff (env : Env) (path : String) (e : GoError) :
    (readConfig env path).1.2 = some e ↔
      ((env.readFile path).2 = some e ∨
        ((env.readFile path).2 = none ∧
          (env.unmarshal (env.readFile path).1 zeroConfig).2 = some e)) := by
  unfold readConfig
  split
  · next err h => simp [h]
  · next h =>
    split
    · next err h2 => simp [h, h2]
    · next h2 => simp [h, h2]

theorem readConfig_err_val (env : Env) (path : String) (e : GoError)
    (h : (readConfig env path).1.2 = some e) : (readConfig env path).1 = (none, some e) := by
  unfold readConfig at h ⊢
  split
  · next err h1 => simp [h1] at h; simp [h]
  · next h1 =>
    simp only [h1] at h
    split
    · next err h2 => simp [h2] at h; simp [h]
    · next h2 => simp [h2] at h

theorem readConfig_ok_iff (env : Env) (path : String) (src : config) :
    (readConfig env path).1 = (some src, none) ↔
      ((env.readFile path).2 = none ∧
        (env.unmarshal (env.readFile path).1 zeroConfig).2 = none ∧
        (env.unmarshal (env.readFile path).1 zeroConfig).1 = src) := by
  unfold readConfig
  split
  · next err h => simp [h]
  · next h =>
    split
    · next err h2 => simp [h, h2]
    · next h2 => simp [h, h2]

theorem readConfig_shape (env : Env) (path : String) :
    (∃ e, (readConfig env path).1 = (none, some e)) ∨
      (∃ src, (readConfig env path).1 = (some src, none)) := by
  unfold readConfig
  split
  · exact Or.inl ⟨_, rfl⟩
  · split
    · exact Or.inl ⟨_, rfl⟩
    · exact Or.inr ⟨_, rfl⟩

theorem loadConfig_ok (env : Env) (b : Bool) (dft : config) (path : String)
    (log : List Event) (src : config) (h : (readConfig env path).1 = (some src, none)) :
    loadConfig env b dft path log =
      ((some (preprocess env src).1, (preprocess env src).2),
        log ++ [Event.readFile path]) := by
  simp [loadConfig, h, readConfig_log]

theorem loadConfig_fail_explicit (env : Env) (dft : config) (path : String)
    (log : List Event) (e : GoError) (h : (readConfig env path).1.2 = some e) :
    loadConfig env false dft path log = ((none, some e), log ++ [Event.readFile path]) := by
  simp [loadConfig, readConfig_err_val env path e h, readConfig_log]

theorem loadConfig_fail_implicit (env : Env) (dft : config) (path : String)
    (log : List Event) (e : GoError) (h : (readConfig env path).1.2 = some e) :
    loadConfig env true dft path log =
      ((some (preprocess env dft).1, (preprocess env dft).2),
        log ++ [Event.readFile path]) := by
  simp [loadConfig, readConfig_err_val env path e h, readConfig_log]

theorem loadConfig_log (env : Env) (b : Bool) (dft : config) (path : String)
    (log : List Event) :
    (loadConfig env b dft path log).2 = log ++ [Event.readFile path] := by
  rcases readConfig_shape env path with ⟨e, he⟩ | ⟨src, hs⟩
  · have he2 : (readConfig env path).1.2 = some e := by simp [he]
    cases b
    · rw [loadConfig_fail_explicit env _ _ _ e he2]
    · rw [loadConfig_fail_implicit env _ _ _ e he2]
  · rw [loadConfig_ok env _ _ _ _ src hs]

theorem InitConfig_explicit (env : Env) (path : String) (hp : path ≠ "") :
    InitConfig env path = loadConfig env false defaultConfig path [] := by
  simp [InitConfig, hp]

theorem InitConfig_implicit_wd (env : Env) (h : env.getwd.2 = none) :
    InitConfig env "" =
      loadConfig env true defaultConfig (Join env.getwd.1 dftConf) [Event.getwd] := by
  simp [InitConfig, dftConfPath, h]

theorem InitConfig_implicit_nowd (env : Env) (e : GoError) (h : env.getwd.2 = some e) :
    InitConfig env "" = ((some defaultConfig, none), [Event.getwd]) := by
  simp [InitConfig, dftConfPath, h]

/-! ## Basic facts about normalization -/

theorem foldl_set_range (f : String → String) (l : List String) :
    ∀ n, n ≤ l.length →
      (List.range n).foldl (fun acc i => acc.set i (f (acc.getD i ""))) l =
        (l.take n).map f ++ l.drop n := by
  intro n
  induction n with
  | zero => intro _; simp
  | succ n ih =>
    intro hn
    have hlt : n < l.length := hn
    rw [List.range_succ, List.foldl_append, ih (Nat.le_of_lt hlt)]
    simp only [List.foldl_cons, List.foldl_nil]
    have hlen : ((l.take n).map f).length = n := by simp [Nat.le_of_lt hlt]
    have hdrop : l.drop n = l[n] :: l.drop (n + 1) := List.drop_eq_getElem_cons hlt
    rw [hdrop]
    rw [List.getD_append_right _ _ _ _ (by rw [hlen])]
    rw [List.set_append_right _ _ (by rw [hlen])]
    rw [hlen]
    simp only [Nat.sub_self, List.getD_cons_zero, List.set_cons_zero]
    rw [List.take_succ, List.getElem?_eq_getElem hlt]
    simp only [Option.toList, List.map_append, List.map_cons, List.map_nil, List.append_assoc,
      List.singleton_append]

theorem cleanExcludeDirs_eq_map (ed : List String) :
    cleanExcludeDirs ed = ed.map cleanPath := by
  unfold cleanExcludeDirs
  rw [foldl_set_range cleanPath ed ed.length (Nat.le_refl _)]
  simp

theorem preprocess_err (env : Env) (c : config) :
    (preprocess env c).2 = (env.expandPath c.Root).2 := by
  rcases hx : (env.expandPath c.Root).2 with _ | e <;> simp [preprocess, hx]

theorem preprocess_Root (env : Env) (c : config) :
    (preprocess env c).1.Root = (env.expandPath c.Root).1 := by
  rcases hx : (env.expandPath c.Root).2 with _ | e <;> by_cases h : c.TmpDir = "" <;>
    simp [preprocess, hx, h]

theorem preprocess_TmpDir (env : Env) (c : config) :
    (preprocess env c).1.TmpDir = if c.TmpDir = "" then "tmp" else c.TmpDir := by
  rcases hx : (env.expandPath c.Root).2 with _ | e <;> by_cases h : c.TmpDir = "" <;>
    simp [preprocess, hx, h]

theorem preprocess_frame (env : Env) (c : config) :
    (preprocess env c).1.WatchDir = c.WatchDir ∧
    (preprocess env c).1.Build.Bin = c.Build.Bin ∧
    (preprocess env c).1.Build.Cmd = c.Build.Cmd ∧
    (preprocess env c).1.Build.Log = c.Build.Log ∧
    (preprocess env c).1.Build.IncludeExt = c.Build.IncludeExt ∧
    (preprocess env c).1.Build.Delay = c.Build.Delay ∧
    (preprocess env c).1.Color = c.Color := by
  rcases hx : (env.expandPath c.Root).2 with _ | e <;> by_cases h : c.TmpDir = "" <;>
    simp [preprocess, hx, h]

theorem preprocess_ExcludeDir_ok (env : Env) (c : config)
    (hx : (env.expandPath c.Root).2 = none) :
    (preprocess env c).1.Build.ExcludeDir = c.Build.ExcludeDir.map cleanPath := by
  by_cases h : c.TmpDir = "" <;> simp [preprocess, hx, h, cleanExcludeDirs_eq_map]

theorem preprocess_ExcludeDir_err (env : Env) (c : config) (e : GoError)
    (hx : (env.expandPath c.Root).2 = some e) :
    (preprocess env c).1.Build.ExcludeDir = c.Build.ExcludeDir := by
  by_cases h : c.TmpDir = "" <;> simp [preprocess, hx, h]

theorem InitConfig_of_reaches (env : Env) (path : String) (src : config)
    (h : reachesPreprocess env path src) :
    (InitConfig env path).1 = (some (preprocess env src).1, (preprocess env src).2) := by
  rcases h with ⟨hp, hr⟩ | ⟨hp, hwd, hr⟩ | ⟨hp, hwd, hr, hsrc⟩
  · rw [InitConfig_explicit env path hp, loadConfig_ok env _ _ _ _ src hr]
  · subst hp
    rw [InitConfig_implicit_wd env hwd, loadConfig_ok env _ _ _ _ src hr]
  · subst hp
    subst hsrc
    obtain ⟨e, he⟩ := Option.ne_none_iff_exists'.mp hr
    rw [InitConfig_implicit_wd env hwd, loadConfig_fail_implicit env _ _ _ e he]

/-- The three ways `InitConfig` can end: the working directory of an
implicit lookup is unavailable, an explicit read fails, or some
configuration is normalized. -/
theorem InitConfig_cases (env : Env) (path : String) :
    (path = "" ∧ ∃ e, env.getwd.2 = some e ∧
        InitConfig env path = ((some defaultConfig, none), [Event.getwd])) ∨
    (path ≠ "" ∧ ∃ e, (readConfig env path).1.2 = some e ∧
        InitConfig env path = ((none, some e), [Event.readFile path])) ∨
    (∃ src, reachesPreprocess env path src ∧
        (InitConfig env path).1 = (some (preprocess env src).1, (preprocess env src).2)) := by
  by_cases hp : path = ""
  · subst hp
    rcases hwd : env.getwd.2 with _ | e
    · right; right
      rcases readConfig_shape env (Join env.getwd.1 dftConf) with ⟨e, he⟩ | ⟨src, hs⟩
      · have hr : reachesPreprocess env "" defaultConfig :=
          Or.inr (Or.inr ⟨rfl, hwd, by simp [he], rfl⟩)
        exact ⟨defaultConfig, hr, InitConfig_of_reaches env "" _ hr⟩
      · have hr : reachesPreprocess env "" src := Or.inr (Or.inl ⟨rfl, hwd, hs⟩)
        exact ⟨src, hr, InitConfig_of_reaches env "" _ hr⟩
    · left
      exact ⟨rfl, e, rfl, InitConfig_implicit_nowd env e hwd⟩
  · right
    rcases readConfig_shape env path with ⟨e, he⟩ | ⟨src, hs⟩
    · left
      have he2 : (readConfig env path).1.2 = some e := by simp [he]
      refine ⟨hp, e, he2, ?_⟩
      rw [InitConfig_explicit env path hp, loadConfig_fail_explicit env _ _ _ e he2]
      simp
    · right
      have hr : reachesPreprocess env path src := Or.inl ⟨hp, hs⟩
      exact ⟨src, hr, InitConfig_of_reaches env path _ hr⟩

/-! ## Sanity checks of the path functions -/

theorem Clean_samples :
    Clean "a/./b" = "a/b" ∧ Clean "c/../d" = "d" ∧ Clean "" = "." ∧
    Clean "/../a//b/" = "/a/b" ∧ Clean "../../a/../.." = "../../.." ∧ Clean "/" = "/" := by
  decide

theorem Join_samples :
    Join "/proj" "tmp" = "/proj/tmp" ∧ Join "" "" = "" ∧
    Join "/w" dftConf = "/w/.air.conf" ∧ Join "" "a//b" = "a/b" := by
  decide

/-! ## The loader `InitConfig` -/

theorem filepathRel_samples :
    relSample "a/b" "a/b/c/d" = some "c/d" ∧
    relSample "a/b/c" "a/c/d" = some "../../c/d" ∧
    relSample "a/b/c/d" "a/b" = some "../.." ∧
    relSample "/a/b" "/a/b/." = some "." ∧
    relSample "/" "/a" = some "a" ∧
    relSample "/a" "/" = some ".." ∧
    relSample "." "a/b" = some "a/b" ∧
    relSample "." ".." = some ".." ∧
    relSample "a" "." = some ".." ∧
    relSample "a/a" "." = some "../.." ∧
    relSample ".." "." = none ∧
    relSample ".." "a" = none ∧
    relSample "../.." ".." = none ∧
    relSample "a" "/a" = none ∧
    relSample "/a" "a" = none := by
  decide

theorem envEmptyDir_expandNeedsWd : envEmptyDir.expandNeedsWd := by
  intro _ p
  by_cases h : p = "." <;> simp [envEmptyDir, envProj, h]

theorem envMalformed_expandNeedsWd : envMalformed.expandNeedsWd := by
  intro _ p
  by_cases h : p = "." <;> simp [envMalformed, envProj, h]

theorem IsAbs_append (p : String) : IsAbs ("/proj/" ++ p) = true := by
  simp [IsAbs, String.data_append]

theorem envAbs_expandAbsolute : envAbs.expandAbsolute := by
  intro p _
  by_cases h1 : IsAbs p = true
  · simp [envAbs, h1]
  · by_cases h2 : p = "."
    · subst h2
      decide
    · simp only [envAbs, h1, h2]
      exact IsAbs_append p

/-- C1: an explicit lookup never falls back.  For every non-empty path, if
reading the file fails with error `e`, or the file is read and parsing it
fails with `e`, then `InitConfig` returns the nil configuration together
with that very `e`; the default configuration is not returned. -/
theorem InitConfig_explicit_failure (env : Env) (path : String) (e : GoError)
    (hp : path ≠ "")
    (hfail : (env.readFile path).2 = some e ∨
      ((env.readFile path).2 = none ∧
        (env.unmarshal (env.readFile path).1 zeroConfig).2 = some e)) :
    (InitConfig env path).1 = (none, some e) ∧
      (InitConfig env path).1.1 ≠ some defaultConfig := by
  have he : (readConfig env path).1.2 = some e := (readConfig_err_iff env path e).mpr hfail
  rw [InitConfig_explicit env path hp, loadConfig_fail_explicit env _ _ _ e he]
  simp

/-- Witness for C1: a missing explicit file and a malformed explicit file. -/
theorem InitConfig_explicit_failure_witness :
    ((InitConfig envProj "explicit/missing/path").1 = (none, some enoent) ∧
      (InitConfig envProj "explicit/missing/path").1.1 ≠ some defaultConfig) ∧
    ((InitConfig envProj "conf/bad.conf").1 = (none, some badToml) ∧
      (InitConfig envProj "conf/bad.conf").1.1 ≠ some defaultConfig) :=
  ⟨InitConfig_explicit_failure envProj "explicit/missing/path" enoent (by decide)
      (Or.inl (by decide)),
    InitConfig_explicit_failure envProj "conf/bad.conf" badToml (by decide)
      (Or.inr (by decide))⟩

/-- C2: an implicit lookup swallows read and parse failures.  When the
working directory can be determined, so that root expansion succeeds, and
reading or parsing the conventional file fails with `e`, whether the file
is absent or malformed, `InitConfig ""` returns the normalization of the
default configuration with a nil error: `e` is not returned. -/
theorem InitConfig_implicit_failure (env : Env) (e : GoError)
    (hexp : env.expandNeedsWd)
    (hwd : env.getwd.2 = none)
    (hfail : (env.readFile (Join env.getwd.1 dftConf)).2 = some e ∨
      ((env.readFile (Join env.getwd.1 dftConf)).2 = none ∧
        (env.unmarshal (env.readFile (Join env.getwd.1 dftConf)).1 zeroConfig).2 = some e)) :
    (InitConfig env "").1 = (some (preprocess env defaultConfig).1, none) ∧
      preprocess env defaultConfig = ((preprocess env defaultConfig).1, none) := by
  have he : (readConfig env (Join env.getwd.1 dftConf)).1.2 = some e :=
    (readConfig_err_iff env _ e).mpr hfail
  have hx : (preprocess env defaultConfig).2 = none := by
    rw [preprocess_err]
    exact hexp hwd _
  refine ⟨?_, Prod.ext rfl hx⟩
  rw [InitConfig_implicit_wd env hwd, loadConfig_fail_implicit env _ _ _ e he, hx]

/-- Witness for C2: a project directory without configuration file, and one
whose conventional file is malformed. -/
theorem InitConfig_implicit_failure_witness :
    ((InitConfig envEmptyDir "").1 = (some (preprocess envEmptyDir defaultConfig).1, none) ∧
      preprocess envEmptyDir defaultConfig =
        ((preprocess envEmptyDir defaultConfig).1, none)) ∧
    ((InitConfig envMalformed "").1 = (some (preprocess envMalformed defaultConfig).1, none) ∧
      preprocess envMalformed defaultConfig =
        ((preprocess envMalformed defaultConfig).1, none)) :=
  ⟨InitConfig_implicit_failure envEmptyDir enoent envEmptyDir_expandNeedsWd (by decide)
      (Or.inl (by decide)),
    InitConfig_implicit_failure envMalformed badToml envMalformed_expandNeedsWd (by decide)
      (Or.inr (by decide))⟩

/-- C3: a working directory that cannot be determined degrades silently.
When the path argument is empty and `os.Getwd` fails, `InitConfig` returns
exactly `defaultConfig()` with a nil error, and the only call made is the
one to `os.Getwd`: no file is read. -/
theorem InitConfig_no_working_directory (env : Env) (e : GoError)
    (hwd : env.getwd.2 = some e) :
    (InitConfig env "").1 = (some defaultConfig, none) ∧
      (InitConfig env "").2 = [Event.getwd] ∧
      ∀ p, Event.readFile p ∉ (InitConfig env "").2 := by
  rw [InitConfig_implicit_nowd env e hwd]
  simp

/-- Witness for C3. -/
theorem InitConfig_no_working_directory_witness :
    (InitConfig envNoWd "").1 = (some defaultConfig, none) ∧
      (InitConfig envNoWd "").2 = [Event.getwd] ∧
      ∀ p, Event.readFile p ∉ (InitConfig envNoWd "").2 :=
  InitConfig_no_working_directory envNoWd noWd (by decide)

/-- C4: a failure of root expansion always surfaces.  Whatever the path
argument, and whether the configuration `src` handed to `preprocess` was
parsed or is the default that replaced a swallowed failure, if expanding
`src.Root` fails with error `e` then `InitConfig` returns `e` itself. -/
theorem InitConfig_expand_failure (env : Env) (path : String) (src : config)
    (e : GoError) (hsrc : reachesPreprocess env path src)
    (hx : (env.expandPath src.Root).2 = some e) :
    (InitConfig env path).1.2 = some e := by
  rw [InitConfig_of_reaches env path src hsrc]
  simp [preprocess_err, hx]

/-- Witness for C4: the swallowed-failure default of an implicit lookup, and
a successfully parsed explicit file. -/
theorem InitConfig_expand_failure_witness :
    (InitConfig envWdLost "").1.2 = some noWd ∧
      (InitConfig envWdLost "conf/air.conf").1.2 = some noWd :=
  ⟨InitConfig_expand_failure envWdLost "" defaultConfig noWd (by decide) (by decide),
    InitConfig_expand_failure envWdLost "conf/air.conf" (sampleParsed zeroConfig) noWd
      (by decide) (by decide)⟩

/-- C5 as stated fails: when the working directory cannot be determined,
`InitConfig ""` returns, with a nil error, the default configuration as it
is: its `Root` is the unexpanded `.`, which is not what root expansion
yields, and it is the result of no successful normalization. -/
theorem InitConfig_default_not_normalized :
    (InitConfig envNoWd "").1 = (some defaultConfig, none) ∧
    defaultConfig.Root = "." ∧
    (envNoWd.expandPath defaultConfig.Root).1 ≠ defaultConfig.Root ∧
    ¬ ∃ src, preprocess envNoWd src = (defaultConfig, none) := by
  refine ⟨by decide, by decide, by decide, ?_⟩
  rintro ⟨src, h⟩
  have h2 := congrArg Prod.snd h
  rw [preprocess_err] at h2
  simp [envNoWd] at h2

/-- C5, amended: every configuration that `InitConfig` returns with a nil
error, except the one returned when the path argument is empty and the
working directory cannot be determined, has passed through `preprocess`
exactly once: it is the result of one successful call of `preprocess` on
the configuration `src` that was parsed or defaulted, and its `Root` is the
absolute path that root expansion yields for `src.Root`, never the
unexpanded `.`. -/
theorem InitConfig_normalized (env : Env) (path : String) (cfg : config)
    (hexp : env.expandAbsolute)
    (hret : (InitConfig env path).1 = (some cfg, none))
    (hwd : path = "" → env.getwd.2 = none) :
    (∃ src, reachesPreprocess env path src ∧ preprocess env src = (cfg, none) ∧
      (env.expandPath src.Root).2 = none ∧ cfg.Root = (env.expandPath src.Root).1) ∧
    IsAbs cfg.Root = true ∧ cfg.Root ≠ "." := by
  rcases InitConfig_cases env path with ⟨hp, e, he, _⟩ | ⟨_, e, _, h⟩ | ⟨src, hr, h⟩
  · rw [hwd hp] at he
    cases he
  · rw [h] at hret
    simp at hret
  · rw [h] at hret
    have h1 : (preprocess env src).1 = cfg := by
      have := congrArg Prod.fst hret
      simpa using this
    have h2 : (preprocess env src).2 = none := congrArg Prod.snd hret
    have h3 : (env.expandPath src.Root).2 = none := by
      rw [← preprocess_err]
      exact h2
    have h4 : cfg.Root = (env.expandPath src.Root).1 := by
      rw [← h1, preprocess_Root]
    have h5 : IsAbs cfg.Root = true := by
      rw [h4]
      exact hexp _ h3
    refine ⟨⟨src, hr, Prod.ext h1 h2, h3, h4⟩, h5, ?_⟩
    intro hdot
    rw [hdot] at h5
    exact absurd h5 (by decide)

/-- Witness for C5, amended: the conventional file of a project directory,
whose `root = "."` becomes `/proj`. -/
theorem InitConfig_normalized_witness :
    (∃ src, reachesPreprocess envAbs "" src ∧
      preprocess envAbs src = ((preprocess envAbs (sampleParsed zeroConfig)).1, none) ∧
      (envAbs.expandPath src.Root).2 = none ∧
      (preprocess envAbs (sampleParsed zeroConfig)).1.Root = (envAbs.expandPath src.Root).1) ∧
    IsAbs (preprocess envAbs (sampleParsed zeroConfig)).1.Root = true ∧
    (preprocess envAbs (sampleParsed zeroConfig)).1.Root ≠ "." :=
  InitConfig_normalized envAbs "" (preprocess envAbs (sampleParsed zeroConfig)).1
    envAbs_expandAbsolute (by decide) (by decide)

/-- C6: no merge with the defaults, field by field.  When reading and
parsing the candidate file succeed with parsed value `p` and root
expansion succeeds, `InitConfig` returns, with a nil error, `p` changed
only in `Root`, in `TmpDir` when it was empty, and in the entries of
`Build.ExcludeDir`: `WatchDir`, `Build.Bin`, `Build.Cmd`, `Build.Log`,
`Build.IncludeExt`, `Build.Delay` and the five colors are those of `p`, so
that an empty `Build.Cmd` stays empty and is not the default command. -/
theorem InitConfig_no_merge (env : Env) (path : String) (p : config)
    (hread : (path ≠ "" ∧ (readConfig env path).1 = (some p, none)) ∨
      (path = "" ∧ env.getwd.2 = none ∧
        (readConfig env (Join env.getwd.1 dftConf)).1 = (some p, none)))
    (hx : (env.expandPath p.Root).2 = none) :
    ∃ cfg, (InitConfig env path).1 = (some cfg, none) ∧
      cfg = { p with
        Root := (env.expandPath p.Root).1,
        TmpDir := if p.TmpDir = "" then "tmp" else p.TmpDir,
        Build := { p.Build with ExcludeDir := p.Build.ExcludeDir.map cleanPath } } ∧
      cfg.WatchDir = p.WatchDir ∧ cfg.Build.Bin = p.Build.Bin ∧
      cfg.Build.Cmd = p.Build.Cmd ∧ cfg.Build.Log = p.Build.Log ∧
      cfg.Build.IncludeExt = p.Build.IncludeExt ∧ cfg.Build.Delay = p.Build.Delay ∧
      cfg.Color.Main = p.Color.Main ∧ cfg.Color.Watcher = p.Color.Watcher ∧
      cfg.Color.Build = p.Color.Build ∧ cfg.Color.Runner = p.Color.Runner ∧
      cfg.Color.App = p.Color.App ∧
      (p.TmpDir ≠ "" → cfg.TmpDir = p.TmpDir) ∧
      (p.Build.Cmd = "" → cfg.Build.Cmd = "" ∧ cfg.Build.Cmd ≠ defaultConfig.Build.Cmd) := by
  have hr : reachesPreprocess env path p := by
    rcases hread with h | h
    · exact Or.inl h
    · exact Or.inr (Or.inl h)
  have hfr := preprocess_frame env p
  obtain ⟨f1, f2, f3, f4, f5, f6, f7⟩ := hfr
  refine ⟨(preprocess env p).1, ?_, ?_, f1, f2, f3, f4, f5, f6, ?_, ?_, ?_, ?_, ?_, ?_, ?_⟩
  · rw [InitConfig_of_reaches env path p hr, preprocess_err, hx]
  · by_cases h : p.TmpDir = "" <;> simp [preprocess, hx, h, cleanExcludeDirs_eq_map]
  · rw [f7]
  · rw [f7]
  · rw [f7]
  · rw [f7]
  · rw [f7]
  · intro h
    rw [preprocess_TmpDir, if_neg h]
  · intro h
    rw [f3, h]
    exact ⟨rfl, by decide⟩

/-- Witness for C6: the sample document sets neither `build.cmd` nor any
color. -/
theorem InitConfig_no_merge_witness :
    ∃ cfg, (InitConfig envProj "conf/air.conf").1 = (some cfg, none) ∧
      cfg.Build.Cmd = "" ∧ cfg.Color.Main = "" ∧ cfg.Build.Delay = 0 := by
  obtain ⟨cfg, h, _, _, _, h3, _, _, h6, h7, _⟩ :=
    InitConfig_no_merge envProj "conf/air.conf" (sampleParsed zeroConfig)
      (Or.inl (by decide)) (by decide)
  exact ⟨cfg, h, h3, h7, h6⟩

/-- C7: which file is read, and how often.  For a non-empty path argument
the calls made by `InitConfig` are exactly one read of that very path, and
the working directory is not asked for; for an empty path argument they
are `os.Getwd` followed, when it succeeds, by one read of the working
directory joined with `.air.conf`, and `os.Getwd` alone when it fails.  In
every case at most one document is read. -/
theorem InitConfig_reads (env : Env) (path : String) :
    (path ≠ "" → (InitConfig env path).2 = [Event.readFile path]) ∧
    (path = "" → env.getwd.2 = none →
      (InitConfig env path).2 =
        [Event.getwd, Event.readFile (Join env.getwd.1 ".air.conf")]) ∧
    (path = "" → env.getwd.2 ≠ none → (InitConfig env path).2 = [Event.getwd]) ∧
    ((InitConfig env path).2.filter Event.isRead).length ≤ 1 := by
  have h1 : path ≠ "" → (InitConfig env path).2 = [Event.readFile path] := by
    intro hp
    rw [InitConfig_explicit env path hp, loadConfig_log]
    rfl
  have h2 : path = "" → env.getwd.2 = none →
      (InitConfig env path).2 =
        [Event.getwd, Event.readFile (Join env.getwd.1 ".air.conf")] := by
    intro hp hwd
    subst hp
    rw [InitConfig_implicit_wd env hwd, loadConfig_log]
    rfl
  have h3 : path = "" → env.getwd.2 ≠ none → (InitConfig env path).2 = [Event.getwd] := by
    intro hp hwd
    subst hp
    obtain ⟨e, he⟩ := Option.ne_none_iff_exists'.mp hwd
    rw [InitConfig_implicit_nowd env e he]
  refine ⟨h1, h2, h3, ?_⟩
  by_cases hp : path = ""
  · by_cases hwd : env.getwd.2 = none
    · rw [h2 hp hwd]
      simp [Event.isRead]
    · rw [h3 hp hwd]
      simp [Event.isRead]
  · rw [h1 hp]
    simp [Event.isRead]

/-- Witness for C7: an explicit path, and the conventional file. -/
theorem InitConfig_reads_witness :
    (InitConfig envProj "conf/air.conf").2 = [Event.readFile "conf/air.conf"] ∧
    (InitConfig envProj "").2 = [Event.getwd, Event.readFile "/proj/.air.conf"] ∧
    (InitConfig envNoWd "").2 = [Event.getwd] :=
  ⟨(InitConfig_reads envProj "conf/air.conf").1 (by decide),
    (InitConfig_reads envProj "").2.1 rfl (by decide),
    (InitConfig_reads envNoWd "").2.2.1 rfl (by decide)⟩

/-- C8: `TmpDir` is never empty.  Whatever the path argument and the
environment, every non-nil configuration that `InitConfig` returns, with
or without an error, has a non-empty `TmpDir`. -/
theorem InitConfig_TmpDir_nonempty (env : Env) (path : String) (cfg : config)
    (hret : (InitConfig env path).1.1 = some cfg) : cfg.TmpDir ≠ "" := by
  rcases InitConfig_cases env path with ⟨_, e, _, h⟩ | ⟨_, e, _, h⟩ | ⟨src, _, h⟩
  · rw [h] at hret
    simp only [Option.some.injEq] at hret
    rw [← hret]
    decide
  · rw [h] at hret
    simp at hret
  · rw [h] at hret
    simp only [Option.some.injEq] at hret
    rw [← hret, preprocess_TmpDir]
    split
    · decide
    · assumption

/-- Witness for C8: the configuration returned along with the error of a
failed normalization. -/
theorem InitConfig_TmpDir_nonempty_witness :
    (InitConfig envWdLost "conf/air.conf").1.2 = some noWd ∧
      (preprocess envWdLost (sampleParsed zeroConfig)).1.TmpDir ≠ "" :=
  ⟨by decide,
    InitConfig_TmpDir_nonempty envWdLost "conf/air.conf"
      (preprocess envWdLost (sampleParsed zeroConfig)).1 (by decide)⟩

/-! ## The normalization step `preprocess` -/

/-- C9: the exclusion directories are normalized by an order-preserving
pointwise map.  For every configuration on which root expansion succeeds,
`Build.ExcludeDir` has after `preprocess` the length it had before and its
entry at each index is `cleanPath` of the original entry at that index, so
that order and duplicates are kept; `["a/./b", "c/../d"]` becomes
`["a/b", "d"]`. -/
theorem preprocess_ExcludeDir (env : Env) (c : config)
    (hx : (env.expandPath c.Root).2 = none) :
    (preprocess env c).2 = none ∧
    (preprocess env c).1.Build.ExcludeDir.length = c.Build.ExcludeDir.length ∧
    (∀ i : Nat, (preprocess env c).1.Build.ExcludeDir[i]? =
      (c.Build.ExcludeDir[i]?).map cleanPath) ∧
    (preprocess env c).1.Build.ExcludeDir = c.Build.ExcludeDir.map cleanPath ∧
    (c.Build.ExcludeDir = ["a/./b", "c/../d"] →
      (preprocess env c).1.Build.ExcludeDir = ["a/b", "d"]) := by
  have hmap := preprocess_ExcludeDir_ok env c hx
  refine ⟨?_, ?_, ?_, hmap, ?_⟩
  · rw [preprocess_err, hx]
  · rw [hmap, List.length_map]
  · intro i
    rw [hmap, List.getElem?_map]
  · intro hed
    rw [hmap, hed]
    decide

/-- Witness for C9: the sample document lists `a/./b` and `c/../d`. -/
theorem preprocess_ExcludeDir_witness :
    (preprocess envProj (sampleParsed zeroConfig)).1.Build.ExcludeDir = ["a/b", "d"] :=
  (preprocess_ExcludeDir envProj (sampleParsed zeroConfig) (by decide)).2.2.2.2 rfl

/-- C10: the default of `TmpDir`.  For every configuration, whether root
expansion succeeds or not, `preprocess` sets an empty `TmpDir` to `tmp` and
leaves a non-empty one as it is; when `Root` expands to `/proj` and
`TmpDir` is empty, afterwards `TmpDir` is `tmp` and `TmpPath()` is
`/proj/tmp`. -/
theorem preprocess_TmpDir_default (env : Env) (c : config) :
    (c.TmpDir = "" → (preprocess env c).1.TmpDir = "tmp") ∧
    (c.TmpDir ≠ "" → (preprocess env c).1.TmpDir = c.TmpDir) ∧
    (c.TmpDir = "" → (env.expandPath c.Root).1 = "/proj" →
      (preprocess env c).1.TmpDir = "tmp" ∧ (preprocess env c).1.TmpPath = "/proj/tmp") := by
  have h1 : c.TmpDir = "" → (preprocess env c).1.TmpDir = "tmp" := by
    intro h
    rw [preprocess_TmpDir, if_pos h]
  refine ⟨h1, ?_, ?_⟩
  · intro h
    rw [preprocess_TmpDir, if_neg h]
  · intro h hroot
    refine ⟨h1 h, ?_⟩
    unfold config.TmpPath
    rw [h1 h, preprocess_Root, hroot]
    decide

/-- Witness for C10: the sample document leaves `tmp_dir` unset and its
root `.` expands to `/proj`. -/
theorem preprocess_TmpDir_default_witness :
    (preprocess envProj (sampleParsed zeroConfig)).1.TmpDir = "tmp" ∧
      (preprocess envProj (sampleParsed zeroConfig)).1.TmpPath = "/proj/tmp" :=
  (preprocess_TmpDir_default envProj (sampleParsed zeroConfig)).2.2 rfl (by decide)

/-- C17: the shape of the result of `InitConfig`.  The returned
configuration is nil exactly when the path argument is non-empty and
reading or parsing it failed; in every other case it is non-nil, also when
normalization fails, where the configuration that `preprocess` left behind
is returned together with the non-nil error of root expansion. -/
theorem InitConfig_nil_iff (env : Env) (path : String) :
    ((InitConfig env path).1.1 = none ↔
      (path ≠ "" ∧ ((env.readFile path).2 ≠ none ∨
        (env.unmarshal (env.readFile path).1 zeroConfig).2 ≠ none))) ∧
    (∀ src e, reachesPreprocess env path src → (env.expandPath src.Root).2 = some e →
      (InitConfig env path).1 = (some (preprocess env src).1, some e)) := by
  constructor
  · rcases InitConfig_cases env path with ⟨hp, e, _, h⟩ | ⟨hp, e, he, h⟩ | ⟨src, hr, h⟩
    · rw [h]
      simp [hp]
    · rw [h]
      simp only [true_iff]
      refine ⟨hp, ?_⟩
      rcases (readConfig_err_iff env path e).mp he with h1 | ⟨_, h2⟩
      · exact Or.inl (by simp [h1])
      · exact Or.inr (by simp [h2])
    · rw [h]
      simp only [false_iff, not_and, not_or, reduceCtorEq]
      intro hp
      rcases hr with ⟨_, hs⟩ | ⟨hp2, _⟩ | ⟨hp2, _⟩
      · have := (readConfig_ok_iff env path src).mp hs
        simp [this.1, this.2.1]
      · exact absurd hp2 hp
      · exact absurd hp2 hp
  · intro src e hr hx
    rw [InitConfig_of_reaches env path src hr, preprocess_err, hx]

/-- Witness for C17: a failed normalization returns a configuration and an
error. -/
theorem InitConfig_nil_iff_witness :
    (InitConfig envWdLost "conf/air.conf").1 =
      (some (preprocess envWdLost (sampleParsed zeroConfig)).1, some noWd) :=
  (InitConfig_nil_iff envWdLost "conf/air.conf").2 (sampleParsed zeroConfig) noWd
    (by decide) (by decide)

/-- C18: `preprocess` is not atomic on failure.  When root expansion fails
with `e`, `preprocess` returns `e` after `Root` has been overwritten with
the value returned alongside the error and an empty `TmpDir` has been set
to `tmp`, while `Build.ExcludeDir` is left as it was, uncleaned, and every
other field is unchanged. -/
theorem preprocess_failure_state (env : Env) (c : config) (e : GoError)
    (hx : (env.expandPath c.Root).2 = some e) :
    preprocess env c =
        ({ c with Root := (env.expandPath c.Root).1,
                  TmpDir := if c.TmpDir = "" then "tmp" else c.TmpDir }, some e) ∧
      (preprocess env c).1.Root = (env.expandPath c.Root).1 ∧
      (c.TmpDir = "" → (preprocess env c).1.TmpDir = "tmp") ∧
      (c.TmpDir ≠ "" → (preprocess env c).1.TmpDir = c.TmpDir) ∧
      (preprocess env c).1.Build = c.Build ∧
      (preprocess env c).1.Build.ExcludeDir = c.Build.ExcludeDir ∧
      (preprocess env c).1.WatchDir = c.WatchDir ∧
      (preprocess env c).1.Color = c.Color := by
  by_cases h : c.TmpDir = "" <;> simp [preprocess, hx, h]

/-- Witness for C18: the sample configuration when root expansion fails. -/
theorem preprocess_failure_state_witness :
    (preprocess envWdLost (sampleParsed zeroConfig)).2 = some noWd ∧
      (preprocess envWdLost (sampleParsed zeroConfig)).1.Root = "" ∧
      (preprocess envWdLost (sampleParsed zeroConfig)).1.TmpDir = "tmp" ∧
      (preprocess envWdLost (sampleParsed zeroConfig)).1.Build.ExcludeDir =
        ["a/./b", "c/../d"] := by
  have h := preprocess_failure_state envWdLost (sampleParsed zeroConfig) noWd (by decide)
  refine ⟨?_, ?_, h.2.2.1 rfl, h.2.2.2.2.2.1⟩
  · rw [h.1]
  · rw [h.2.1]
    decide

/-! ## The default provider and the accessors -/

/-- C12: the default provider returns fixed literal values.
`defaultConfig()` is a constant, without input and without failure mode,
with `Root` `.`, `TmpDir` `tmp`, an empty `WatchDir`, `Build.Bin` `tmp/main`,
a non-empty `Build.Cmd`, `Build.Log` `build-errors.log`, the extensions
`go, tpl, tmpl, html`, the excluded directories `assets, tmp, vendor`, a
delay of 1000 and five non-empty color names. -/
theorem defaultConfig_values :
    defaultConfig.Root = "." ∧ defaultConfig.TmpDir = "tmp" ∧
    defaultConfig.WatchDir = "" ∧ defaultConfig.Build.Bin = "tmp/main" ∧
    defaultConfig.Build.Cmd = "go build -o ./tmp/main main.go" ∧
    defaultConfig.Build.Cmd ≠ "" ∧
    defaultConfig.Build.Log = "build-errors.log" ∧
    defaultConfig.Build.IncludeExt = ["go", "tpl", "tmpl", "html"] ∧
    defaultConfig.Build.ExcludeDir = ["assets", "tmp", "vendor"] ∧
    defaultConfig.Build.Delay = 1000 ∧
    defaultConfig.Color =
      { Main := "magenta", Watcher := "cyan", Build := "yellow", Runner := "green",
        App := "white" } ∧
    defaultConfig.Color.Main ≠ "" ∧ defaultConfig.Color.Watcher ≠ "" ∧
    defaultConfig.Color.Build ≠ "" ∧ defaultConfig.Color.Runner ≠ "" ∧
    defaultConfig.Color.App ≠ "" := by
  decide

/-- C13 as stated fails: a delay of 9223372036855 is non-negative and fits
in a 64-bit `int`, but `BuildDelay()` is negative, the multiplication with
`time.Millisecond` having wrapped around. -/
theorem BuildDelay_wraps :
    0 ≤ hugeDelayConfig.Build.Delay ∧
    hugeDelayConfig.Build.Delay ≤ 9223372036854775807 ∧
    hugeDelayConfig.BuildDelay = -9223372036854551616 ∧
    hugeDelayConfig.BuildDelay < 0 ∧
    hugeDelayConfig.BuildDelay ≠ hugeDelayConfig.Build.Delay * 1000000 := by
  decide

/-- C13, amended: `BuildDelay` reads the delay as milliseconds.  For every
configuration whose `Build.Delay` is a non-negative `d` of at most
9223372036854, so that `d × 1,000,000` fits in 64 bits, `BuildDelay()` is
exactly `d × 1,000,000` nanoseconds and is non-negative; for `d = 1000` it
is one second. -/
theorem BuildDelay_milliseconds (c : config) (h0 : 0 ≤ c.Build.Delay)
    (h1 : c.Build.Delay ≤ 9223372036854) :
    c.BuildDelay = c.Build.Delay * 1000000 ∧ 0 ≤ c.BuildDelay ∧
      (c.Build.Delay = 1000 → c.BuildDelay = 1000000000) := by
  have h : c.BuildDelay = c.Build.Delay * 1000000 := by
    unfold config.BuildDelay int64 Millisecond
    omega
  refine ⟨h, ?_, ?_⟩
  · rw [h]
    omega
  · intro hd
    rw [h, hd]
    rfl

/-- Witness for C13, amended: the default delay. -/
theorem BuildDelay_milliseconds_witness :
    defaultConfig.BuildDelay = defaultConfig.Build.Delay * 1000000 ∧
      0 ≤ defaultConfig.BuildDelay ∧
      (defaultConfig.Build.Delay = 1000 → defaultConfig.BuildDelay = 1000000000) :=
  BuildDelay_milliseconds defaultConfig (by decide) (by decide)

/-- C14: the accessors agree.  For every configuration `TmpPath()` is
`FullPath(TmpDir)`, `BinPath()` is `FullPath(Build.Bin)` and
`BuildLogPath()` is `TmpPath()` joined with `Build.Log`.  The accessors
assign nothing through their receiver: each is a function of the
configuration alone. -/
theorem accessors_agree (c : config) :
    c.TmpPath = c.FullPath c.TmpDir ∧ c.BinPath = c.FullPath c.Build.Bin ∧
      c.BuildLogPath = Join c.TmpPath c.Build.Log ∧
      c.BuildLogPath = Join (Join c.Root c.TmpDir) c.Build.Log :=
  ⟨rfl, rfl, rfl, rfl⟩

/-- C15: the watch root.  For every configuration `WatchDirRoot()` is
`Root` joined with `WatchDir`, that is `FullPath(WatchDir)`, when `WatchDir`
is not empty, and is `Root` itself, character for character, when it is. -/
theorem WatchDirRoot_cases (c : config) :
    (c.WatchDir ≠ "" →
      c.WatchDirRoot = Join c.Root c.WatchDir ∧ c.WatchDirRoot = c.FullPath c.WatchDir) ∧
    (c.WatchDir = "" → c.WatchDirRoot = c.Root) := by
  constructor
  · intro h
    simp [config.WatchDirRoot, config.FullPath, h]
  · intro h
    simp [config.WatchDirRoot, h]

/-- Witness for C15: a root that is not in cleaned form is returned as it
is, and the default configuration with a watch directory. -/
theorem WatchDirRoot_cases_witness :
    uncleanRootConfig.WatchDirRoot = "./proj//src/" ∧
      ({ defaultConfig with WatchDir := "src" } : config).WatchDirRoot = "src" :=
  ⟨(WatchDirRoot_cases uncleanRootConfig).2 rfl,
    ((WatchDirRoot_cases { defaultConfig with WatchDir := "src" }).1 (by decide)).1.trans
      (by decide)⟩

/-! ## `filepath.Clean` is idempotent -/

theorem splitSlash_ne_nil (p : List Char) : splitSlash p ≠ [] := by
  cases p with
  | nil => simp [splitSlash]
  | cons c cs =>
    unfold splitSlash
    split
    · simp
    · split <;> simp

theorem splitSlash_noSlash (p : List Char) : ∀ x ∈ splitSlash p, '/' ∉ x := by
  induction p with
  | nil => simp [splitSlash]
  | cons c cs ih =>
    unfold splitSlash
    split
    · intro x hx
      rcases List.mem_cons.mp hx with rfl | hx
      · simp
      · exact ih x hx
    · next hc =>
      split
      · intro x hx
        simp only [List.mem_singleton] at hx
        subst hx
        simpa using Ne.symm hc
      · next h t heq =>
        intro x hx
        rw [heq] at ih
        rcases List.mem_cons.mp hx with rfl | hx
        · have := ih h (List.mem_cons_self _ _)
          simp only [List.mem_cons, not_or]
          exact ⟨Ne.symm hc, this⟩
        · exact ih x (List.mem_cons_of_mem _ hx)

theorem splitSlash_of_noSlash (x : List Char) (hx : '/' ∉ x) : splitSlash x = [x] := by
  induction x with
  | nil => rfl
  | cons c cs ih =>
    simp only [List.mem_cons, not_or] at hx
    unfold splitSlash
    rw [if_neg (Ne.symm hx.1), ih hx.2]

theorem splitSlash_append (x t : List Char) (hx : '/' ∉ x) :
    splitSlash (x ++ '/' :: t) = x :: splitSlash t := by
  induction x with
  | nil => simp [splitSlash]
  | cons c cs ih =>
    simp only [List.mem_cons, not_or] at hx
    rw [List.cons_append]
    conv_lhs => unfold splitSlash
    rw [if_neg (Ne.symm hx.1), ih hx.2]

theorem splitSlash_joinSlash (L : List (List Char)) (hne : L ≠ [])
    (hL : ∀ x ∈ L, '/' ∉ x) : splitSlash (joinSlash L) = L := by
  induction L with
  | nil => exact absurd rfl hne
  | cons x rest ih =>
    cases rest with
    | nil => exact splitSlash_of_noSlash x (hL x (List.mem_cons_self _ _))
    | cons y rest2 =>
      unfold joinSlash
      rw [splitSlash_append x _ (hL x (List.mem_cons_self _ _)),
        ih (by simp) (fun z hz => hL z (List.mem_cons_of_mem _ hz))]

theorem GoodStack_elem (r : Bool) (s : List (List Char)) (h : GoodStack r s) :
    ∀ x ∈ s, x ≠ [] ∧ x ≠ ['.'] ∧ '/' ∉ x := by
  induction s with
  | nil => simp
  | cons y s ih =>
    intro x hx
    rcases List.mem_cons.mp hx with rfl | hx
    · exact h.1
    · exact ih h.2.2 x hx

theorem cleanStep_good (r : Bool) (s : List (List Char)) (comp : List Char)
    (hs : GoodStack r s) (hc : '/' ∉ comp) : GoodStack r (cleanStep r s comp) := by
  unfold cleanStep
  split
  · exact hs
  · next h1 =>
    simp only [not_or] at h1
    split
    · next h2 =>
      cases s with
      | nil =>
        cases r
        · subst h2
          exact ⟨⟨by simp, by simp, by simp⟩, fun _ => ⟨rfl, Or.inl rfl⟩, trivial⟩
        · exact trivial
      | cons top rest =>
        simp only
        split
        · next h3 =>
          cases r
          · subst h2
            subst h3
            exact ⟨⟨by simp, by simp, by simp⟩, fun _ => ⟨rfl, Or.inr rfl⟩, hs⟩
          · exact hs
        · exact hs.2.2
    · next h2 =>
      exact ⟨⟨h1.1, h1.2, hc⟩, fun h => absurd h h2, hs⟩

theorem foldl_cleanStep_good (r : Bool) (comps : List (List Char)) :
    ∀ s, GoodStack r s → (∀ x ∈ comps, '/' ∉ x) →
      GoodStack r (comps.foldl (cleanStep r) s) := by
  induction comps with
  | nil => intro s hs _; exact hs
  | cons c cs ih =>
    intro s hs hc
    exact ih _ (cleanStep_good r s c hs (hc c (List.mem_cons_self _ _)))
      (fun x hx => hc x (List.mem_cons_of_mem _ hx))

theorem foldl_cleanStep_reverse (r : Bool) (s : List (List Char)) (hs : GoodStack r s) :
    s.reverse.foldl (cleanStep r) [] = s := by
  induction s with
  | nil => rfl
  | cons x s ih =>
    rw [List.reverse_cons, List.foldl_append, ih hs.2.2]
    simp only [List.foldl_cons, List.foldl_nil]
    obtain ⟨⟨h1, h2, _⟩, h4, _⟩ := hs
    unfold cleanStep
    rw [if_neg (by simp [h1, h2])]
    split
    · next hdd =>
      obtain ⟨hr, hs2⟩ := h4 hdd
      subst hr
      rcases hs2 with rfl | hh
      · simp
      · cases s with
        | nil => simp
        | cons top rest =>
          simp only [List.head?_cons, Option.some.injEq] at hh
          simp [hh]
    · rfl

theorem joinSlash_head (x : List Char) (rest : List (List Char)) (hx : x ≠ []) :
    (joinSlash (x :: rest)).head? = x.head? ∧ joinSlash (x :: rest) ≠ [] := by
  cases x with
  | nil => exact absurd rfl hx
  | cons c cs =>
    cases rest with
    | nil => simp [joinSlash]
    | cons y rest2 => simp [joinSlash]

theorem cleanChars_idempotent (p : List Char) : cleanChars (cleanChars p) = cleanChars p := by
  have hgood : ∀ r, GoodStack r ((splitSlash p).foldl (cleanStep r) []) := fun r =>
    foldl_cleanStep_good r _ [] trivial (splitSlash_noSlash p)
  by_cases hr : p.head? = some '/'
  · have hS := hgood true
    have hout : cleanChars p =
        '/' :: joinSlash ((splitSlash p).foldl (cleanStep true) []).reverse := by
      simp [cleanChars, hr]
    generalize (splitSlash p).foldl (cleanStep true) [] = S at hS hout
    rw [hout]
    have hstack : (splitSlash ('/' :: joinSlash S.reverse)).foldl (cleanStep true) [] = S := by
      have h0 : splitSlash ('/' :: joinSlash S.reverse) =
          [] :: splitSlash (joinSlash S.reverse) := by simp [splitSlash]
      rw [h0, List.foldl_cons]
      have h1 : cleanStep true [] [] = [] := by simp [cleanStep]
      rw [h1]
      by_cases hne : S = []
      · subst hne
        simp [joinSlash, splitSlash, cleanStep]
      · rw [splitSlash_joinSlash S.reverse (by simpa using hne)
          (fun x hx => (GoodStack_elem true S hS x (List.mem_reverse.mp hx)).2.2)]
        exact foldl_cleanStep_reverse true S hS
    simp only [cleanChars, List.head?_cons, decide_True, if_true]
    rw [hstack]
  · have hS := hgood false
    have hout : cleanChars p =
        if joinSlash ((splitSlash p).foldl (cleanStep false) []).reverse = [] then ['.']
        else joinSlash ((splitSlash p).foldl (cleanStep false) []).reverse := by
      simp [cleanChars, hr]
    generalize (splitSlash p).foldl (cleanStep false) [] = S at hS hout
    rw [hout]
    by_cases hb : joinSlash S.reverse = []
    · rw [if_pos hb]
      decide
    · rw [if_neg hb]
      have hne : S.reverse ≠ [] := by
        intro h
        rw [h] at hb
        exact hb rfl
      obtain ⟨x, rest, hxr⟩ := List.exists_cons_of_ne_nil hne
      have hx := GoodStack_elem false S hS x
        (List.mem_reverse.mp (by rw [hxr]; exact List.mem_cons_self _ _))
      have hhead := (joinSlash_head x rest hx.1).1
      have hnr : ¬ (joinSlash S.reverse).head? = some '/' := by
        rw [hxr, hhead]
        intro h
        cases x with
        | nil => exact hx.1 rfl
        | cons c cs =>
          simp only [List.head?_cons, Option.some.injEq] at h
          exact hx.2.2 (by simp [h])
      have hstack : (splitSlash (joinSlash S.reverse)).foldl (cleanStep false) [] = S := by
        rw [splitSlash_joinSlash S.reverse hne
          (fun y hy => (GoodStack_elem false S hS y (List.mem_reverse.mp hy)).2.2)]
        exact foldl_cleanStep_reverse false S hS
      simp only [cleanChars, hnr, decide_False, Bool.false_eq_true, if_false]
      rw [hstack, if_neg hb]

theorem Clean_idempotent (p : String) : Clean (Clean p) = Clean p := by
  unfold Clean
  rw [cleanChars_idempotent]

theorem preprocess_ok (env : Env) (c : config) (hx : (env.expandPath c.Root).2 = none) :
    preprocess env c =
      ({ c with
          Root := (env.expandPath c.Root).1,
          TmpDir := if c.TmpDir = "" then "tmp" else c.TmpDir,
          Build := { c.Build with ExcludeDir := c.Build.ExcludeDir.map cleanPath } },
        none) := by
  by_cases h : c.TmpDir = "" <;> simp [preprocess, hx, h, cleanExcludeDirs_eq_map]

theorem envProj_expandIdempotent : envProj.expandIdempotent := by
  intro p _
  by_cases hp : p = "."
  · subst hp
    decide
  · simp [envProj, hp]

/-- C11: normalization is idempotent.  With a root expansion that is
idempotent, as the spec states of it, for every configuration on which
`preprocess` succeeds a second run of `preprocess` on the result succeeds
too and returns a configuration equal to that result in every field. -/
theorem preprocess_idempotent (env : Env) (c : config) (hexp : env.expandIdempotent)
    (hok : (preprocess env c).2 = none) :
    preprocess env (preprocess env c).1 = ((preprocess env c).1, none) := by
  have hx : (env.expandPath c.Root).2 = none := by
    rw [← preprocess_err]
    exact hok
  have hroot := hexp c.Root hx
  rw [preprocess_ok env c hx]
  have hx2 : (env.expandPath (env.expandPath c.Root).1).2 = none := by rw [hroot]
  rw [preprocess_ok env _ hx2]
  have hclean : ∀ l : List String, (l.map cleanPath).map cleanPath = l.map cleanPath := by
    intro l
    rw [List.map_map]
    apply List.map_congr_left
    intro a _
    exact Clean_idempotent a
  by_cases ht : c.TmpDir = "" <;> simp [hroot, ht, hclean]

/-- Witness for C11: the sample configuration in the project directory. -/
theorem preprocess_idempotent_witness :
    preprocess envProj (preprocess envProj (sampleParsed zeroConfig)).1 =
      ((preprocess envProj (sampleParsed zeroConfig)).1, none) :=
  preprocess_idempotent envProj (sampleParsed zeroConfig) envProj_expandIdempotent
    (by decide)

/-! ## `filepath.Rel` never succeeds with an empty path -/

theorem cleanChars_ne_nil (p : List Char) : cleanChars p ≠ [] := by
  unfold cleanChars
  simp only
  split
  · simp
  · split
    · simp
    · assumption

theorem joinSlash_getLast (L : List (List Char)) (hne : L ≠ [])
    (hL : ∀ x ∈ L, x ≠ [] ∧ '/' ∉ x) : (joinSlash L).getLast? ≠ some '/' := by
  induction L with
  | nil => exact absurd rfl hne
  | cons x rest ih =>
    cases rest with
    | nil =>
      intro h
      exact (hL x (List.mem_cons_self _ _)).2 (List.mem_of_getLast?_eq_some h)
    | cons y rest2 =>
      have hy := hL y (List.mem_cons_of_mem _ (List.mem_cons_self _ _))
      have ih2 := ih (by simp) (fun z hz => hL z (List.mem_cons_of_mem _ hz))
      obtain ⟨_, hj⟩ := joinSlash_head y rest2 hy.1
      obtain ⟨j, J, hJ⟩ := List.exists_cons_of_ne_nil hj
      unfold joinSlash
      rw [List.getLast?_append_cons, hJ, List.getLast?_cons_cons, ← hJ]
      exact ih2

theorem cleanChars_getLast (p : List Char) (h : (cleanChars p).getLast? = some '/') :
    cleanChars p = ['/'] := by
  have hgood : ∀ r, GoodStack r ((splitSlash p).foldl (cleanStep r) []) := fun r =>
    foldl_cleanStep_good r _ [] trivial (splitSlash_noSlash p)
  have key : ∀ r (S : List (List Char)), GoodStack r S → S ≠ [] →
      (joinSlash S.reverse).getLast? ≠ some '/' := by
    intro r S hS hne
    apply joinSlash_getLast S.reverse (by simpa using hne)
    intro x hx
    have := GoodStack_elem r S hS x (List.mem_reverse.mp hx)
    exact ⟨this.1, this.2.2⟩
  by_cases hr : p.head? = some '/'
  · have hS := hgood true
    have hout : cleanChars p =
        '/' :: joinSlash ((splitSlash p).foldl (cleanStep true) []).reverse := by
      simp [cleanChars, hr]
    generalize (splitSlash p).foldl (cleanStep true) [] = S at hS hout
    by_cases hne : S = []
    · rw [hout, hne]
      rfl
    · exfalso
      rw [hout] at h
      have hk := key true S hS hne
      cases hj : joinSlash S.reverse with
      | nil =>
        rw [hj] at hk
        cases hS2 : S.reverse with
        | nil => exact hne (by simpa using hS2)
        | cons x rest =>
          have hx := GoodStack_elem true S hS x
            (List.mem_reverse.mp (by rw [hS2]; exact List.mem_cons_self _ _))
          rw [hS2] at hj
          exact (joinSlash_head x rest hx.1).2 hj
      | cons j J =>
        rw [hj, List.getLast?_cons_cons] at h
        rw [hj] at hk
        exact hk h
  · have hS := hgood false
    have hout : cleanChars p =
        if joinSlash ((splitSlash p).foldl (cleanStep false) []).reverse = [] then ['.']
        else joinSlash ((splitSlash p).foldl (cleanStep false) []).reverse := by
      simp [cleanChars, hr]
    generalize (splitSlash p).foldl (cleanStep false) [] = S at hS hout
    exfalso
    rw [hout] at h
    by_cases hb : joinSlash S.reverse = []
    · rw [if_pos hb] at h
      simp at h
    · rw [if_neg hb] at h
      have hne : S ≠ [] := by
        intro hS0
        rw [hS0] at hb
        exact hb rfl
      exact key false S hS hne h

theorem dropWhile_slash (l : List Char) :
    l.dropWhile (fun c => c != '/') = [] ∨
      ∃ r, l.dropWhile (fun c => c != '/') = '/' :: r := by
  induction l with
  | nil => exact Or.inl rfl
  | cons c cs ih =>
    by_cases hc : c = '/'
    · right
      subst hc
      exact ⟨cs, by simp [List.dropWhile]⟩
    · have : (c != '/') = true := by simpa using hc
      rw [List.dropWhile_cons, if_pos this]
      exact ih

theorem relLoop_nil_left (n : Nat) (t : List Char) : relLoop n [] t = ([], t) := by
  cases n <;> simp [relLoop]

theorem relLoop_nil_right (n : Nat) (b : List Char) : relLoop n b [] = (b, []) := by
  cases n <;> simp [relLoop]

theorem length_next_lt (b : List Char) (hb : b ≠ []) :
    ((b.dropWhile (fun c => c != '/')).drop 1).length < b.length := by
  have h1 := congrArg List.length (List.takeWhile_append_dropWhile (fun c => c != '/') b)
  rw [List.length_append] at h1
  have h2 : 0 < b.length := List.length_pos.mpr hb
  rw [List.length_drop]
  omega

/-- The fuel of `relLoop` is never used up: every fuel of at least the
length of `base[b0:]` gives the same result. -/
theorem relLoop_fuel : ∀ (n m : Nat) (b t : List Char), b.length ≤ n → b.length ≤ m →
    relLoop n b t = relLoop m b t := by
  intro n
  induction n with
  | zero =>
    intro m b t hn _
    have hb : b = [] := List.length_eq_zero.mp (Nat.le_zero.mp hn)
    subst hb
    rw [relLoop_nil_left, relLoop_nil_left]
  | succ n ih =>
    intro m b t hn hm
    cases m with
    | zero =>
      have hb : b = [] := List.length_eq_zero.mp (Nat.le_zero.mp hm)
      subst hb
      rw [relLoop_nil_left, relLoop_nil_left]
    | succ m =>
      unfold relLoop
      split
      · rfl
      · next hbt =>
        simp only [not_or] at hbt
        split
        · rfl
        · have hlt := length_next_lt b hbt.1
          exact ih m _ _ (by omega) (by omega)

/-- When the loop of `filepath.Rel` uses up both paths, they are equal up to
one trailing separator. -/
theorem relLoop_exhausted : ∀ (n : Nat) (b t : List Char),
    relLoop n b t = ([], []) → b = t ∨ b = t ++ ['/'] ∨ t = b ++ ['/'] := by
  intro n
  induction n with
  | zero =>
    intro b t h
    simp only [relLoop, Prod.mk.injEq] at h
    left
    rw [h.1, h.2]
  | succ n ih =>
    intro b t h
    unfold relLoop at h
    split at h
    · simp only [Prod.mk.injEq] at h
      left
      rw [h.1, h.2]
    · next hbt =>
      simp only [not_or] at hbt
      split at h
      · simp only [Prod.mk.injEq] at h
        exact absurd h.1 hbt.1
      · next heq =>
        simp only [ne_eq, not_not] at heq
        have hb := (List.takeWhile_append_dropWhile (fun c => c != '/') b).symm
        have ht := (List.takeWhile_append_dropWhile (fun c => c != '/') t).symm
        rw [heq] at ht
        generalize b.takeWhile (fun c => c != '/') = el at hb ht
        rcases dropWhile_slash b with hdb | ⟨rb, hdb⟩ <;>
          rcases dropWhile_slash t with hdt | ⟨rt, hdt⟩ <;>
          rw [hdb, hdt] at h <;> rw [hdb] at hb <;> rw [hdt] at ht
        · left
          rw [hb, ht]
        · right; right
          simp only [List.drop_nil, List.drop_succ_cons, List.drop_zero] at h
          rw [relLoop_nil_left] at h
          simp only [Prod.mk.injEq, true_and] at h
          rw [hb, ht, h]
          simp
        · right; left
          simp only [List.drop_nil, List.drop_succ_cons, List.drop_zero] at h
          rw [relLoop_nil_right] at h
          simp only [Prod.mk.injEq, and_true] at h
          rw [hb, ht, h]
          simp
        · simp only [List.drop_succ_cons, List.drop_zero] at h
          rcases ih rb rt h with h1 | h1 | h1
          · left
            rw [hb, ht, h1]
          · right; left
            rw [hb, ht, h1]
            simp
          · right; right
            rw [hb, ht, h1]
            simp

/-- A path that `filepath.Rel` computes from two cleaned paths is not
empty. -/
theorem relChars_ne_nil (base targ r : List Char) (hB : base ≠ []) (hT : targ ≠ [])
    (hBl : base.getLast? = some '/' → base = ['/'])
    (hTl : targ.getLast? = some '/' → targ = ['/'])
    (h : relChars base targ = some r) : r ≠ [] := by
  unfold relChars at h
  simp only at h
  by_cases h1 : targ = base
  · rw [if_pos h1] at h
    simp only [Option.some.injEq] at h
    rw [← h]
    simp
  · rw [if_neg h1] at h
    generalize hb1 : (if base = ['.'] then [] else base) = base1 at h
    by_cases h2 : decide (base1.head? = some '/') ≠ decide (targ.head? = some '/')
    · rw [if_pos h2] at h
      cases h
    · rw [if_neg h2] at h
      by_cases h3 : (relLoop base1.length base1 targ).1.takeWhile (fun c => c != '/') =
          ['.', '.']
      · rw [if_pos h3] at h
        cases h
      · rw [if_neg h3] at h
        by_cases h4 : (relLoop base1.length base1 targ).1 ≠ []
        · rw [if_pos h4] at h
          simp only [Option.some.injEq] at h
          rw [← h]
          exact cleanChars_ne_nil _
        · rw [if_neg h4] at h
          simp only [ne_eq, not_not] at h4
          simp only [Option.some.injEq] at h
          intro hr0
          rw [hr0] at h
          have hrel := relLoop_exhausted _ _ targ (Prod.ext h4 h)
          by_cases hdot : base = ['.']
          · rw [if_pos hdot] at hb1
            subst hb1
            rcases hrel with hr | hr | hr
            · exact hT hr.symm
            · simp at hr
            · rw [hr] at h2
              simp at h2
          · rw [if_neg hdot] at hb1
            subst hb1
            rcases hrel with hr | hr | hr
            · exact h1 hr.symm
            · have hb2 := hBl (by rw [hr]; simp)
              rw [hb2] at hr
              have : targ = [] := by
                cases targ with
                | nil => rfl
                | cons a as => simp at hr
              exact hT this
            · have ht2 := hTl (by rw [hr]; simp)
              rw [ht2] at hr
              have : base = [] := by
                cases base with
                | nil => rfl
                | cons a as => simp at hr
              exact hB this

theorem filepathRel_ne_empty (basepath targpath : String)
    (h : (filepathRel basepath targpath).2 = none) :
    (filepathRel basepath targpath).1 ≠ "" := by
  unfold filepathRel at h ⊢
  cases hr : relChars (Clean basepath).data (Clean targpath).data with
  | none => simp [hr] at h
  | some r =>
    simp only []
    have := relChars_ne_nil _ _ r (cleanChars_ne_nil basepath.data)
      (cleanChars_ne_nil targpath.data) (cleanChars_getLast basepath.data)
      (cleanChars_getLast targpath.data) hr
    intro hcontra
    exact this (congrArg String.data hcontra)

theorem splitSlash_append_any (x y : List Char) :
    splitSlash (x ++ '/' :: y) = splitSlash x ++ splitSlash y := by
  induction x with
  | nil => simp [splitSlash]
  | cons c cs ih =>
    rw [List.cons_append]
    by_cases hc : c = '/'
    · subst hc
      simp [splitSlash, ih]
    · have e1 : ∀ l, splitSlash (c :: l) =
          (match splitSlash l with
            | [] => [[c]]
            | h :: t => (c :: h) :: t) := by
        intro l
        conv_lhs => unfold splitSlash
        rw [if_neg hc]
      rw [e1, e1, ih]
      cases h : splitSlash cs with
      | nil => exact absurd h (splitSlash_ne_nil cs)
      | cons a as => simp

theorem takeWhile_joinSlash (x : List Char) (rest : List (List Char)) (hx : '/' ∉ x) :
    (joinSlash (x :: rest)).takeWhile (fun c => c != '/') = x ∧
      ((joinSlash (x :: rest)).dropWhile (fun c => c != '/')).drop 1 = joinSlash rest := by
  have hall : ∀ c ∈ x, (c != '/') = true := by
    intro c hc
    have : c ≠ '/' := fun h => hx (h ▸ hc)
    simpa using this
  cases rest with
  | nil =>
    simp only [joinSlash]
    rw [List.takeWhile_eq_self_iff.mpr hall, List.dropWhile_eq_nil_iff.mpr hall]
    exact ⟨rfl, rfl⟩
  | cons y rest2 =>
    simp only [joinSlash]
    constructor
    · rw [List.takeWhile_append_of_pos hall]
      simp
    · rw [List.dropWhile_append_of_pos hall]
      simp

theorem count_joinSlash (x : List Char) (rest : List (List Char))
    (h : ∀ z ∈ x :: rest, '/' ∉ z) : (joinSlash (x :: rest)).count '/' = rest.length := by
  induction rest generalizing x with
  | nil =>
    simp only [joinSlash, List.length_nil]
    exact List.count_eq_zero.mpr (h x (List.mem_cons_self _ _))
  | cons y rest2 ih =>
    simp only [joinSlash, List.count_append, List.length_cons]
    rw [List.count_eq_zero.mpr (h x (List.mem_cons_self _ _)), List.count_cons_self,
      ih y (fun z hz => h z (List.mem_cons_of_mem _ hz))]
    omega

theorem joinSlash_ne_nil (x : List Char) (rest : List (List Char)) (hx : x ≠ []) :
    joinSlash (x :: rest) ≠ [] := (joinSlash_head x rest hx).2

/-- The loop of `filepath.Rel` on two paths given by their elements strips
the longest common prefix of the two lists of elements. -/
theorem relLoop_joinSlash : ∀ (B T : List (List Char)) (n : Nat),
    (∀ x ∈ B, x ≠ [] ∧ '/' ∉ x) → (∀ x ∈ T, x ≠ [] ∧ '/' ∉ x) →
    (joinSlash B).length ≤ n →
    ∃ P B' T', B = P ++ B' ∧ T = P ++ T' ∧
      relLoop n (joinSlash B) (joinSlash T) = (joinSlash B', joinSlash T') ∧
      (B' = [] ∨ T' = [] ∨ B'.head? ≠ T'.head?) := by
  intro B
  induction B with
  | nil =>
    intro T n _ _ _
    exact ⟨[], [], T, rfl, rfl, by simp [joinSlash, relLoop_nil_left], Or.inl rfl⟩
  | cons x Br ih =>
    intro T n hB hT hn
    cases T with
    | nil =>
      exact ⟨[], x :: Br, [], rfl, rfl, by simp [joinSlash, relLoop_nil_right],
        Or.inr (Or.inl rfl)⟩
    | cons y Tr =>
      have hx := hB x (List.mem_cons_self _ _)
      have hy := hT y (List.mem_cons_self _ _)
      have hjb := joinSlash_ne_nil x Br hx.1
      have hjt := joinSlash_ne_nil y Tr hy.1
      have htb := takeWhile_joinSlash x Br hx.2
      have htt := takeWhile_joinSlash y Tr hy.2
      have hlt := length_next_lt _ hjb
      rw [htb.2] at hlt
      cases n with
      | zero =>
        have := List.length_pos.mpr hjb
        omega
      | succ m =>
        unfold relLoop
        rw [if_neg (by simp [hjb, hjt]), htb.1, htt.1, htb.2, htt.2]
        by_cases hyx : y = x
        · subst hyx
          rw [if_neg (by simp)]
          obtain ⟨P, B', T', h1, h2, h3, h4⟩ := ih Tr m
            (fun z hz => hB z (List.mem_cons_of_mem _ hz))
            (fun z hz => hT z (List.mem_cons_of_mem _ hz)) (by omega)
          exact ⟨y :: P, B', T', by rw [h1]; rfl, by rw [h2]; rfl, h3, h4⟩
        · rw [if_pos hyx]
          refine ⟨[], x :: Br, y :: Tr, rfl, rfl, rfl, Or.inr (Or.inr ?_)⟩
          simp only [List.head?_cons, ne_eq, Option.some.injEq]
          exact fun h => hyx h.symm

theorem GoodStack_append_right (R : Bool) (a b : List (List Char))
    (h : GoodStack R (a ++ b)) : GoodStack R b := by
  induction a with
  | nil => exact h
  | cons x a ih => exact ih h.2.2

/-- An element that `filepath.Clean` keeps is pushed. -/
theorem cleanStep_push (R : Bool) (x : List Char) (s : List (List Char))
    (h : GoodStack R (x :: s)) : cleanStep R s x = x :: s := by
  obtain ⟨⟨h1, h2, _⟩, h4, _⟩ := h
  unfold cleanStep
  rw [if_neg (by simp [h1, h2])]
  split
  · next hdd =>
    obtain ⟨hr, hs2⟩ := h4 hdd
    subst hr
    rcases hs2 with rfl | hh
    · simp
    · cases s with
      | nil => simp
      | cons top rest =>
        simp only [List.head?_cons, Option.some.injEq] at hh
        simp [hh]
  · rfl

theorem foldl_cleanStep_push (R : Bool) (T : List (List Char)) :
    ∀ Pr : List (List Char), GoodStack R (T.reverse ++ Pr) →
      T.foldl (cleanStep R) Pr = T.reverse ++ Pr := by
  induction T with
  | nil => intro Pr _; rfl
  | cons x T ih =>
    intro Pr h
    rw [List.reverse_cons, List.append_assoc] at h
    rw [List.foldl_cons, cleanStep_push R x Pr (GoodStack_append_right R _ _ h),
      ih (x :: Pr) h, List.reverse_cons, List.append_assoc]
    rfl

theorem foldl_cleanStep_pop (R : Bool) (W Q : List (List Char))
    (hW : ∀ x ∈ W, x ≠ ['.', '.']) :
    (List.replicate W.length ['.', '.']).foldl (cleanStep R) (W ++ Q) = Q := by
  induction W with
  | nil => rfl
  | cons w W ih =>
    rw [List.length_cons, List.replicate_succ, List.foldl_cons]
    have hw := hW w (List.mem_cons_self _ _)
    have : cleanStep R (w :: W ++ Q) ['.', '.'] = W ++ Q := by
      simp [cleanStep, hw]
    rw [this]
    exact ih (fun x hx => hW x (List.mem_cons_of_mem _ hx))

/-- In what `filepath.Clean` keeps, `..` elements come first: when the first
of some last elements is not `..`, none of them is. -/
theorem GoodStack_no_dotdot (R : Bool) (W Q : List (List Char))
    (h : GoodStack R (W ++ Q)) (hl : W.getLast? ≠ some ['.', '.']) :
    ∀ x ∈ W, x ≠ ['.', '.'] := by
  induction W with
  | nil => intro x hx; cases hx
  | cons w W ih =>
    have hrest : ∀ x ∈ W, x ≠ ['.', '.'] := by
      cases W with
      | nil => intro x hx; cases hx
      | cons v W2 =>
        exact ih h.2.2 (by simpa [List.getLast?_cons_cons] using hl)
    intro x hx
    rcases List.mem_cons.mp hx with rfl | hx
    · intro hdd
      cases W with
      | nil => exact hl (by simp [hdd])
      | cons v W2 =>
        obtain ⟨_, hbelow⟩ := h.2.1 hdd
        rcases hbelow with hb | hb
        · cases hb
        · exact hrest v (List.mem_cons_self _ _) (by simpa using hb)
    · exact hrest x hx

/-- Cleaning a relative path first does not change what its elements do to
the elements kept so far. -/
theorem foldl_cleanStep_clean (R : Bool) (s : List (List Char)) (comps : List (List Char))
    (hc : ∀ x ∈ comps, '/' ∉ x) :
    (comps.foldl (cleanStep false) []).reverse.foldl (cleanStep R) s =
      comps.foldl (cleanStep R) s := by
  induction comps using List.reverseRecOn with
  | nil => rfl
  | append_singleton comps c ih =>
    have hc1 : ∀ x ∈ comps, '/' ∉ x := fun x hx => hc x (List.mem_append_left _ hx)
    have ih := ih hc1
    have hgood := foldl_cleanStep_good false comps [] trivial hc1
    rw [List.foldl_append, List.foldl_append]
    simp only [List.foldl_cons, List.foldl_nil]
    generalize comps.foldl (cleanStep false) [] = u at ih hgood
    generalize comps.foldl (cleanStep R) s = w at ih
    by_cases h1 : c = [] ∨ c = ['.']
    · have e1 : ∀ (r : Bool) (st : List (List Char)), cleanStep r st c = st := by
        intro r st
        unfold cleanStep
        rw [if_pos h1]
      rw [e1, e1]
      exact ih
    · by_cases h2 : c = ['.', '.']
      · subst h2
        cases u with
        | nil =>
          simp only [List.reverse_nil, List.foldl_nil] at ih
          subst ih
          simp [cleanStep]
        | cons top rest =>
          by_cases h3 : top = ['.', '.']
          · subst h3
            have e2 : cleanStep false (['.', '.'] :: rest) ['.', '.'] =
                ['.', '.'] :: ['.', '.'] :: rest := by simp [cleanStep]
            rw [e2, List.reverse_cons, List.foldl_append, ih]
            rfl
          · have e2 : cleanStep false (top :: rest) ['.', '.'] = rest := by
              simp [cleanStep, h3]
            rw [e2]
            rw [List.reverse_cons, List.foldl_append] at ih
            simp only [List.foldl_cons, List.foldl_nil] at ih
            generalize rest.reverse.foldl (cleanStep R) s = v at ih
            rw [← ih]
            have ht := hgood.1
            have e3 : cleanStep R v top = top :: v := by
              simp [cleanStep, ht.1, ht.2.1, h3]
            rw [e3]
            simp [cleanStep, h3]
      · have e1 : ∀ (r : Bool) (st : List (List Char)), cleanStep r st c = c :: st := by
          intro r st
          unfold cleanStep
          rw [if_neg h1, if_neg h2]
        rw [e1, e1, List.reverse_cons, List.foldl_append, ih]
        simp only [List.foldl_cons, List.foldl_nil]
        exact e1 R w

theorem cleanChars_eq_format (p : List Char) :
    cleanChars p = cleanFormat (decide (p.head? = some '/'))
      ((splitSlash p).foldl (cleanStep (decide (p.head? = some '/'))) []) := rfl

theorem cleanChars_good (p : List Char) :
    GoodStack (decide (p.head? = some '/'))
      ((splitSlash p).foldl (cleanStep (decide (p.head? = some '/'))) []) :=
  foldl_cleanStep_good _ _ [] trivial (splitSlash_noSlash p)

theorem joinSlash_eq_nil (L : List (List Char)) (hL : ∀ x ∈ L, x ≠ []) :
    joinSlash L = [] ↔ L = [] := by
  cases L with
  | nil => simp [joinSlash]
  | cons x rest =>
    simp only [reduceCtorEq, iff_false]
    exact joinSlash_ne_nil x rest (hL x (List.mem_cons_self _ _))

theorem joinSlash_head_ne_slash (L : List (List Char))
    (hL : ∀ x ∈ L, x ≠ [] ∧ '/' ∉ x) : (joinSlash L).head? ≠ some '/' := by
  cases L with
  | nil => simp [joinSlash]
  | cons x rest =>
    have hx := hL x (List.mem_cons_self _ _)
    rw [(joinSlash_head x rest hx.1).1]
    cases x with
    | nil => exact absurd rfl hx.1
    | cons c cs =>
      simp only [List.head?_cons, ne_eq, Option.some.injEq]
      intro h
      exact hx.2 (by simp [h])

theorem GoodStack_rev_elem (R : Bool) (S : List (List Char)) (h : GoodStack R S) :
    ∀ x ∈ S.reverse, x ≠ [] ∧ '/' ∉ x := fun x hx =>
  ⟨(GoodStack_elem R S h x (List.mem_reverse.mp hx)).1,
    (GoodStack_elem R S h x (List.mem_reverse.mp hx)).2.2⟩

theorem cleanFormat_false (S : List (List Char)) (h : GoodStack false S) :
    cleanFormat false S = joinSlash (if S = [] then [['.']] else S.reverse) := by
  unfold cleanFormat
  simp only [Bool.false_eq_true, if_false]
  have := joinSlash_eq_nil S.reverse (fun x hx => (GoodStack_rev_elem false S h x hx).1)
  by_cases hS : S = []
  · subst hS
    simp [joinSlash]
  · rw [if_neg hS, if_neg]
    rw [this]
    simpa using hS

theorem cleanFormat_head (R : Bool) (S : List (List Char)) (h : GoodStack R S) :
    (cleanFormat R S).head? = some '/' ↔ R = true := by
  cases R with
  | true => simp [cleanFormat]
  | false =>
    simp only [Bool.false_eq_true, iff_false]
    rw [cleanFormat_false S h]
    apply joinSlash_head_ne_slash
    by_cases hS : S = []
    · rw [if_pos hS]
      intro x hx
      simp only [List.mem_singleton] at hx
      subst hx
      simp
    · rw [if_neg hS]
      exact GoodStack_rev_elem false S h

theorem cleanFormat_stack (R : Bool) (S : List (List Char)) (h : GoodStack R S) :
    (splitSlash (cleanFormat R S)).foldl (cleanStep R) [] = S := by
  have hel := GoodStack_rev_elem R S h
  cases R with
  | true =>
    have h0 : splitSlash (cleanFormat true S) = [] :: splitSlash (joinSlash S.reverse) := by
      simp [cleanFormat, splitSlash]
    rw [h0, List.foldl_cons]
    have h1 : cleanStep true [] [] = [] := by simp [cleanStep]
    rw [h1]
    by_cases hne : S = []
    · subst hne
      simp [joinSlash, splitSlash, cleanStep]
    · rw [splitSlash_joinSlash S.reverse (by simpa using hne) (fun x hx => (hel x hx).2)]
      exact foldl_cleanStep_reverse true S h
  | false =>
    rw [cleanFormat_false S h]
    by_cases hne : S = []
    · subst hne
      simp [joinSlash, splitSlash, cleanStep]
    · rw [if_neg hne, splitSlash_joinSlash S.reverse (by simpa using hne)
        (fun x hx => (hel x hx).2)]
      exact foldl_cleanStep_reverse false S h

theorem cleanFormat_inj (R1 R2 : Bool) (S1 S2 : List (List Char)) (h1 : GoodStack R1 S1)
    (h2 : GoodStack R2 S2) (h : cleanFormat R1 S1 = cleanFormat R2 S2) :
    R1 = R2 ∧ S1 = S2 := by
  have hR : R1 = R2 := by
    have a := cleanFormat_head R1 S1 h1
    have b := cleanFormat_head R2 S2 h2
    rw [h] at a
    cases R1 <;> cases R2 <;> simp_all
  subst hR
  refine ⟨rfl, ?_⟩
  rw [← cleanFormat_stack R1 S1 h1, h, cleanFormat_stack R1 S2 h2]

theorem cleanChars_join (b r : List Char) (hb : b ≠ []) :
    cleanChars (b ++ '/' :: r) = cleanFormat (decide (b.head? = some '/'))
      ((splitSlash r).foldl (cleanStep (decide (b.head? = some '/')))
        ((splitSlash b).foldl (cleanStep (decide (b.head? = some '/'))) [])) := by
  have hh : (b ++ '/' :: r).head? = b.head? := by
    cases b with
    | nil => exact absurd rfl hb
    | cons c cs => rfl
  rw [cleanChars_eq_format, hh, splitSlash_append_any, List.foldl_append]

theorem cleanChars_head (p : List Char) :
    (cleanChars p).head? = some '/' ↔ p.head? = some '/' := by
  rw [cleanChars_eq_format, cleanFormat_head _ _ (cleanChars_good p)]
  simp

theorem joinSlash_dots (T : List (List Char)) (hT : ∀ x ∈ T, x ≠ []) : ∀ k : Nat,
    joinSlash (List.replicate (k + 1) ['.', '.'] ++ T) =
      ['.', '.'] ++ (List.replicate k ['/', '.', '.']).flatten ++
        (if joinSlash T ≠ [] then '/' :: joinSlash T else []) := by
  intro k
  induction k with
  | zero =>
    cases T with
    | nil => simp [joinSlash]
    | cons y rest =>
      have := joinSlash_ne_nil y rest (hT y (List.mem_cons_self _ _))
      simp [joinSlash, this]
  | succ k ih =>
    have e : List.replicate (k + 1 + 1) ['.', '.'] ++ T =
        ['.', '.'] :: ['.', '.'] :: (List.replicate k ['.', '.'] ++ T) := by
      simp [List.replicate_succ]
    have e2 : List.replicate (k + 1) ['.', '.'] ++ T =
        ['.', '.'] :: (List.replicate k ['.', '.'] ++ T) := by
      simp [List.replicate_succ]
    have e3 : ∀ (a b : List Char) (l : List (List Char)),
        joinSlash (a :: b :: l) = a ++ '/' :: joinSlash (b :: l) := fun _ _ _ => rfl
    rw [e, e3, ← e2, ih]
    simp [List.replicate_succ]

/-- Cleaning a relative path first does not change what it does to the
elements kept so far. -/
theorem foldl_splitSlash_cleanChars (R : Bool) (s : List (List Char)) (y : List Char)
    (hy : y.head? ≠ some '/') :
    (splitSlash (cleanChars y)).foldl (cleanStep R) s =
      (splitSlash y).foldl (cleanStep R) s := by
  have hd : decide (y.head? = some '/') = false := by simpa using hy
  have hg := cleanChars_good y
  rw [cleanChars_eq_format, hd] at *
  rw [cleanFormat_false _ hg, ← foldl_cleanStep_clean R s (splitSlash y) (splitSlash_noSlash y)]
  generalize (splitSlash y).foldl (cleanStep false) [] = U at hg
  by_cases hU : U = []
  · subst hU
    simp [joinSlash, splitSlash, cleanStep]
  · rw [if_neg hU, splitSlash_joinSlash U.reverse (by simpa using hU)
      (fun x hx => (GoodStack_rev_elem false U hg x hx).2)]

theorem foldl_cleanStep_rest (R : Bool) (ST P T : List (List Char)) (hT : GoodStack R ST)
    (hP : ∀ x ∈ P, x ≠ ['.'])
    (e : (if R = false ∧ ST = [] then [['.']] else ST.reverse) = P ++ T) :
    T.foldl (cleanStep R) P.reverse = ST := by
  by_cases hc : R = false ∧ ST = []
  · rw [if_pos hc] at e
    obtain ⟨_, hS⟩ := hc
    subst hS
    cases P with
    | nil =>
      simp only [List.nil_append] at e
      subst e
      simp [cleanStep]
    | cons p P2 =>
      have hp := hP p (List.mem_cons_self _ _)
      simp only [List.cons_append, List.cons.injEq] at e
      exact absurd e.1.symm hp
  · rw [if_neg hc] at e
    have hS : ST = T.reverse ++ P.reverse := by
      rw [← List.reverse_append, ← e, List.reverse_reverse]
    rw [hS] at hT
    rw [foldl_cleanStep_push R T P.reverse hT, hS]

theorem relLoop_format (R : Bool) (SB ST : List (List Char)) (base1 : List Char)
    (hB : GoodStack R SB) (hT : GoodStack R ST)
    (hb1 : (if cleanFormat R SB = ['.'] then [] else cleanFormat R SB) = base1) :
    ∃ P B' T', SB.reverse = P ++ B' ∧
      (if R = false ∧ ST = [] then [['.']] else ST.reverse) = P ++ T' ∧
      relLoop base1.length base1 (cleanFormat R ST) = (joinSlash B', joinSlash T') ∧
      (B' = [] ∨ T' = [] ∨ B'.head? ≠ T'.head?) := by
  have hBel := GoodStack_rev_elem R SB hB
  have hTel := GoodStack_rev_elem R ST hT
  cases R with
  | true =>
    have hne : cleanFormat true SB ≠ ['.'] := by simp [cleanFormat]
    rw [if_neg hne] at hb1
    subst hb1
    have e1 : relLoop (cleanFormat true SB).length (cleanFormat true SB) (cleanFormat true ST) =
        relLoop (joinSlash SB.reverse).length (joinSlash SB.reverse) (joinSlash ST.reverse) := by
      simp [cleanFormat, relLoop]
    rw [e1]
    simpa using relLoop_joinSlash SB.reverse ST.reverse _ hBel hTel (le_refl _)
  | false =>
    have hb : base1 = joinSlash SB.reverse := by
      rw [← hb1]
      by_cases hS : SB = []
      · subst hS
        simp [cleanFormat, joinSlash]
      · have hne : cleanFormat false SB ≠ ['.'] := by
          intro hh
          have : cleanFormat false SB = cleanFormat false [] := by
            rw [hh]
            simp [cleanFormat, joinSlash]
          exact hS (cleanFormat_inj false false SB [] hB (show GoodStack false [] from trivial) this).2
        rw [if_neg hne, cleanFormat_false SB hB, if_neg hS]
    subst hb
    rw [cleanFormat_false ST hT]
    have hTel2 : ∀ x ∈ (if ST = [] then [['.']] else ST.reverse), x ≠ [] ∧ '/' ∉ x := by
      by_cases hS : ST = []
      · rw [if_pos hS]
        intro x hx
        simp only [List.mem_singleton] at hx
        subst hx
        simp
      · rw [if_neg hS]
        exact hTel
    simpa using relLoop_joinSlash SB.reverse _ _ hBel hTel2 (le_refl _)

/-- What `filepath.Rel` computes from two cleaned paths: the paths are both
rooted or both relative, the result is relative, and its elements lead from
the elements of the base to those of the target. -/
theorem relChars_format (Rb Rt : Bool) (SB ST : List (List Char)) (r : List Char)
    (hB : GoodStack Rb SB) (hT : GoodStack Rt ST)
    (h : relChars (cleanFormat Rb SB) (cleanFormat Rt ST) = some r) :
    Rb = Rt ∧ r.head? ≠ some '/' ∧ (splitSlash r).foldl (cleanStep Rb) SB = ST := by
  unfold relChars at h
  simp only at h
  by_cases h1 : cleanFormat Rt ST = cleanFormat Rb SB
  · rw [if_pos h1] at h
    obtain ⟨hR, hS⟩ := cleanFormat_inj _ _ _ _ hT hB h1
    simp only [Option.some.injEq] at h
    subst h
    subst hR
    subst hS
    exact ⟨rfl, by simp, by simp [splitSlash, cleanStep]⟩
  · rw [if_neg h1] at h
    have hhead : (if cleanFormat Rb SB = ['.'] then [] else cleanFormat Rb SB).head? = some '/' ↔
        Rb = true := by
      by_cases hd : cleanFormat Rb SB = ['.']
      · rw [if_pos hd]
        have := cleanFormat_head Rb SB hB
        rw [hd] at this
        simp only [List.head?_nil, reduceCtorEq, false_iff]
        intro hR
        have h3 := this.mpr hR
        simp at h3
      · rw [if_neg hd]
        exact cleanFormat_head Rb SB hB
    generalize hb1 : (if cleanFormat Rb SB = ['.'] then [] else cleanFormat Rb SB) = base1
      at h hhead
    by_cases h2 : decide (base1.head? = some '/') ≠
        decide ((cleanFormat Rt ST).head? = some '/')
    · rw [if_pos h2] at h
      cases h
    · rw [if_neg h2] at h
      have hR : Rb = Rt := by
        have ht := cleanFormat_head Rt ST hT
        simp only [ne_eq, not_not, decide_eq_decide] at h2
        cases Rb <;> cases Rt <;> simp_all
      subst hR
      obtain ⟨P, B', T', e1, e2, e3, e4⟩ := relLoop_format Rb SB ST base1 hB hT hb1
      rw [e3] at h
      simp only at h
      have hBel : ∀ x ∈ B', x ≠ [] ∧ '/' ∉ x := fun x hx =>
        GoodStack_rev_elem Rb SB hB x (by rw [e1]; exact List.mem_append_right _ hx)
      have hPel : ∀ x ∈ P, x ≠ ['.'] := fun x hx =>
        (GoodStack_elem Rb SB hB x
          (List.mem_reverse.mp (by rw [e1]; exact List.mem_append_left _ hx))).2.1
      have hTel : ∀ x ∈ T', x ≠ [] ∧ '/' ∉ x := by
        intro x hx
        have hx2 : x ∈ (if Rb = false ∧ ST = [] then [['.']] else ST.reverse) := by
          rw [e2]
          exact List.mem_append_right _ hx
        by_cases hc : Rb = false ∧ ST = []
        · rw [if_pos hc] at hx2
          simp only [List.mem_singleton] at hx2
          subst hx2
          simp
        · rw [if_neg hc] at hx2
          exact GoodStack_rev_elem Rb ST hT x hx2
      have hSB : SB = B'.reverse ++ P.reverse := by
        rw [← List.reverse_append, ← e1, List.reverse_reverse]
      have hfin := foldl_cleanStep_rest Rb ST P T' hT hPel e2
      by_cases h3 : (joinSlash B').takeWhile (fun c => c != '/') = ['.', '.']
      · rw [if_pos h3] at h
        cases h
      · rw [if_neg h3] at h
        by_cases h4 : joinSlash B' ≠ []
        · rw [if_pos h4] at h
          simp only [Option.some.injEq] at h
          cases B' with
          | nil => exact absurd rfl h4
          | cons x Brest =>
            have hx := hBel x (List.mem_cons_self _ _)
            rw [(takeWhile_joinSlash x Brest hx.2).1] at h3
            rw [count_joinSlash x Brest (fun z hz => (hBel z hz).2),
              ← joinSlash_dots T' (fun z hz => (hTel z hz).1) Brest.length] at h
            have hyh : (joinSlash (List.replicate (Brest.length + 1) ['.', '.'] ++ T')).head? ≠
                some '/' := by
              apply joinSlash_head_ne_slash
              intro z hz
              rcases List.mem_append.mp hz with hz | hz
              · rw [List.eq_of_mem_replicate hz]
                simp
              · exact hTel z hz
            have hsplit : splitSlash (joinSlash (List.replicate (Brest.length + 1) ['.', '.'] ++ T'))
                = List.replicate (Brest.length + 1) ['.', '.'] ++ T' := by
              apply splitSlash_joinSlash
              · simp [List.replicate_succ]
              · intro z hz
                rcases List.mem_append.mp hz with hz | hz
                · rw [List.eq_of_mem_replicate hz]
                  simp
                · exact (hTel z hz).2
            have hW : ∀ z ∈ (x :: Brest).reverse, z ≠ ['.', '.'] := by
              apply GoodStack_no_dotdot Rb (x :: Brest).reverse P.reverse
              · rw [← hSB]
                exact hB
              · rw [List.getLast?_reverse]
                simpa using h3
            have hpop := foldl_cleanStep_pop Rb (x :: Brest).reverse P.reverse hW
            rw [List.length_reverse, List.length_cons, ← hSB] at hpop
            subst h
            refine ⟨rfl, ?_, ?_⟩
            · intro hc
              exact hyh ((cleanChars_head _).mp hc)
            · rw [foldl_splitSlash_cleanChars Rb SB _ hyh, hsplit, List.foldl_append, hpop]
              exact hfin
        · rw [if_neg h4] at h
          simp only [ne_eq, not_not] at h4
          simp only [Option.some.injEq] at h
          subst h
          have hB0 : B' = [] := (joinSlash_eq_nil B' (fun z hz => (hBel z hz).1)).mp h4
          subst hB0
          simp only [List.reverse_nil, List.nil_append] at hSB
          refine ⟨rfl, joinSlash_head_ne_slash T' hTel, ?_⟩
          by_cases hT0 : T' = []
          · subst hT0
            simp only [List.foldl_nil] at hfin
            rw [hSB, hfin]
            simp [joinSlash, splitSlash, cleanStep]
          · rw [splitSlash_joinSlash T' hT0 (fun z hz => (hTel z hz).2), hSB]
            exact hfin

theorem relChars_join (b t r : List Char)
    (h : relChars (cleanChars b) (cleanChars t) = some r) :
    r.head? ≠ some '/' ∧ cleanChars (if b = [] then r else b ++ '/' :: r) = cleanChars t := by
  have hrel := relChars_format _ _ _ _ r (cleanChars_good b) (cleanChars_good t)
    (by rw [← cleanChars_eq_format, ← cleanChars_eq_format]; exact h)
  obtain ⟨hR, hr, hst⟩ := hrel
  refine ⟨hr, ?_⟩
  by_cases hb : b = []
  · subst hb
    rw [if_pos rfl]
    have hd : decide (r.head? = some '/') = false := by simpa using hr
    have h0 : decide (([] : List Char).head? = some '/') = false := by simp
    rw [h0] at hR hst
    have h1 : (splitSlash []).foldl (cleanStep false) [] = [] := by
      simp [splitSlash, cleanStep]
    rw [h1] at hst
    rw [cleanChars_eq_format r, hd, hst, cleanChars_eq_format t, ← hR]
  · rw [if_neg hb, cleanChars_join b r hb, hst, cleanChars_eq_format t, ← hR]

/-- A path that `filepath.Rel` computes is relative and leads from the base
to the target: joined to the base it gives the cleaned target. -/
theorem filepathRel_Join (basepath targpath : String)
    (h : (filepathRel basepath targpath).2 = none) :
    IsAbs (filepathRel basepath targpath).1 = false ∧
      Join basepath (filepathRel basepath targpath).1 = Clean targpath := by
  have hne := filepathRel_ne_empty basepath targpath h
  unfold filepathRel at h hne ⊢
  cases hr : relChars (Clean basepath).data (Clean targpath).data with
  | none => simp [hr] at h
  | some r =>
    rw [hr] at hne
    simp only at hne ⊢
    obtain ⟨h1, h2⟩ := relChars_join basepath.data targpath.data r hr
    refine ⟨by simpa [IsAbs] using h1, ?_⟩
    unfold Join
    by_cases hb : basepath = ""
    · subst hb
      rw [if_neg (by simp), if_pos hne]
      have hd0 : ("" : String).data = [] := rfl
      rw [hd0, if_pos rfl] at h2
      unfold Clean
      rw [h2]
    · rw [if_pos hb]
      have hb2 : basepath.data ≠ [] := by
        intro hh
        apply hb
        exact String.ext hh
      rw [if_neg hb2] at h2
      unfold Clean
      have : (basepath ++ "/" ++ String.mk r).data = basepath.data ++ '/' :: r := by
        simp [String.data_append]
      rw [this, h2]

/-- C16: the relative-path accessor.  `Rel` always returns a string: the
path that `filepath.Rel(Root, p)` computes when it succeeds, which is never
the empty string, is relative, and is `p` expressed relative to `Root`
(joined to `Root` it gives the cleaned `p`); and the empty string when
`filepath.Rel` fails.  So the result is empty exactly when no relative path
can be computed. -/
theorem Rel_empty_iff (c : config) (p : String) :
    ((filepathRel c.Root p).2 = none →
      c.Rel p = (filepathRel c.Root p).1 ∧ c.Rel p ≠ "" ∧
        IsAbs (c.Rel p) = false ∧ Join c.Root (c.Rel p) = Clean p) ∧
    ((filepathRel c.Root p).2 ≠ none → c.Rel p = "") ∧
    (c.Rel p = "" ↔ (filepathRel c.Root p).2 ≠ none) := by
  have h1 : (filepathRel c.Root p).2 = none →
      c.Rel p = (filepathRel c.Root p).1 ∧ c.Rel p ≠ "" ∧
        IsAbs (c.Rel p) = false ∧ Join c.Root (c.Rel p) = Clean p := by
    intro h
    have hr : c.Rel p = (filepathRel c.Root p).1 := by simp [config.Rel, h]
    rw [hr]
    exact ⟨rfl, filepathRel_ne_empty c.Root p h, filepathRel_Join c.Root p h⟩
  have h2 : (filepathRel c.Root p).2 ≠ none → c.Rel p = "" := by
    intro h
    obtain ⟨e, he⟩ := Option.ne_none_iff_exists'.mp h
    simp [config.Rel, he]
  refine ⟨h1, h2, ?_, h2⟩
  intro hempty hnone
  exact (h1 hnone).2.1 hempty

/-- Witness for C16: a file below the root, which joined to the root gives
the file again; a relative path that cannot be made relative to an absolute
root; and a target that lies above a root of which only `../..` is known. -/
theorem Rel_empty_iff_witness :
    ({ defaultConfig with Root := "/proj" } : config).Rel "/proj/src/main.go" = "src/main.go" ∧
      Join "/proj" (({ defaultConfig with Root := "/proj" } : config).Rel "/proj/src/main.go") =
        Clean "/proj/src/main.go" ∧
      ({ defaultConfig with Root := "/proj" } : config).Rel "src/main.go" = "" ∧
      ({ defaultConfig with Root := "../.." } : config).Rel ".." = "" :=
  ⟨((Rel_empty_iff { defaultConfig with Root := "/proj" } "/proj/src/main.go").1
      (by decide)).1.trans (by decide),
    ((Rel_empty_iff { defaultConfig with Root := "/proj" } "/proj/src/main.go").1
      (by decide)).2.2.2,
    (Rel_empty_iff { defaultConfig with Root := "/proj" } "src/main.go").2.1 (by decide),
    (Rel_empty_iff { defaultConfig with Root := "../.." } "..").2.1 (by decide)⟩

end Runner
